import Mathlib

/-!
Shallow embedding of the 2D cubic-Bezier curve library `bezier2d_utils.py`
(NumPy batch operations on (N, 8) segment arrays), together with proofs about
its sampling, subdivision, monotonicity-enforcement, matching, interpolation
and hashing operations.

Modelling conventions:
* a segment row [P0x, P0y, P1x, P1y, P2x, P2y, P3x, P3y] is a structure of
  eight rationals; an (N, 8) array is a `List Seg` (machine floats are
  modelled by exact rationals);
* functions that can raise (`ValueError`) return `Except String`;
* functions that can return Python `None` return `Option`.
-/

/- Batteries marks the rational-number operations `irreducible`, which blocks
`decide`-style evaluation of the embedded library on concrete inputs; restore
the default reducibility (the kernel is unaffected by this attribute). -/
set_option allowUnsafeReducibility true

attribute [semireducible] Rat.add Rat.mul Rat.inv Rat.sub Rat.ofScientific

namespace Bez2D

/-- One cubic Bezier segment: a row [P0x, P0y, P1x, P1y, P2x, P2y, P3x, P3y]
of an (N, 8) NumPy segments array. -/
structure Seg where
  p0x : ℚ
  p0y : ℚ
  p1x : ℚ
  p1y : ℚ
  p2x : ℚ
  p2y : ℚ
  p3x : ℚ
  p3y : ℚ
deriving DecidableEq, Repr

/-- x-coordinate of the cubic Bezier point
`P0*(1-t)^3 + P1*3*(1-t)^2*t + P2*3*(1-t)*t^2 + P3*t^3`
(the formula used by `sample_bezsegs`). -/
def bezX (s : Seg) (t : ℚ) : ℚ :=
  s.p0x * (1 - t) ^ 3 + s.p1x * 3 * (1 - t) ^ 2 * t
    + s.p2x * 3 * (1 - t) * t ^ 2 + s.p3x * t ^ 3

/-- y-coordinate of the cubic Bezier point. -/
def bezY (s : Seg) (t : ℚ) : ℚ :=
  s.p0y * (1 - t) ^ 3 + s.p1y * 3 * (1 - t) ^ 2 * t
    + s.p2y * 3 * (1 - t) * t ^ 2 + s.p3y * t ^ 3

/-- The cubic Bezier point of a segment at parameter `t`. -/
def bezPt (s : Seg) (t : ℚ) : ℚ × ℚ :=
  (bezX s t, bezY s t)

/-- `np.linspace(0, 1, n+1)`: the parameters `j / n` for `j = 0..n`. -/
def linspace01 (n : ℕ) : List ℚ :=
  (List.range (n + 1)).map (fun j : ℕ => (j : ℚ) / (n : ℚ))

/-- The `(num_segments, num_points_per_segment, 2)` point grid of
`sample_bezsegs`, flattened row by row exactly as `points.reshape(-1, 2)`. -/
def sampleGrid (segs : List Seg) (rate : ℕ) : List (ℚ × ℚ) :=
  segs.flatMap (fun s => (linspace01 rate).map (bezPt s))

/-- The `indices_to_keep` list of `sample_bezsegs`: index 0 followed, for each
segment `i`, by the `sampling_rate + 1` indices
`i*(rate+1) + 1, ..., i*(rate+1) + rate + 1` (the code comment intends to drop
junction duplicates, but the built range also includes the first point of the
following segment). -/
def indicesToKeep (numSegments rate : ℕ) : List ℕ :=
  0 :: (List.range numSegments).flatMap (fun i => List.range' (i * (rate + 1) + 1) (rate + 1))

/-- Core computation of `sample_bezsegs` once the empty/rate guards passed:
build the flattened grid, then keep the `indices_to_keep` entries that are in
bounds. -/
def sampleCore (segs : List Seg) (rate : ℕ) : List (ℚ × ℚ) :=
  ((indicesToKeep segs.length rate).filter
      (fun i => i < (sampleGrid segs rate).length)).filterMap
    (fun i => (sampleGrid segs rate)[i]?)

/-- `sample_bezsegs(segments, sampling_rate)`: empty (or `None`) input returns
an empty point array before `sampling_rate` is validated; a rate below 1 only
raises `ValueError` on non-empty input. -/
def sample_bezsegs (segments : Option (List Seg)) (sampling_rate : ℤ) :
    Except String (List (ℚ × ℚ)) :=
  match segments with
  | none => .ok []
  | some segs =>
    if segs = [] then .ok []
    else if sampling_rate < 1 then .error "sampling_rate must be at least 1"
    else .ok (sampleCore segs sampling_rate.toNat)

/-- `np.all(np.diff(xs) >= 0)`: all consecutive differences non-negative. -/
def pairsLE : List ℚ → Bool
  | [] => true
  | [_] => true
  | x :: y :: rest => decide (x ≤ y) && pairsLE (y :: rest)

/-- `is_bezsegs_monotonic(segments, sample_rate)`: sample the curve and check
that the sampled x-coordinates have non-negative consecutive differences.
(The `.error` branch is unreachable for the rates the library uses, which are
at least 1.) -/
def is_bezsegs_monotonic (segments : List Seg) (sample_rate : ℕ) : Bool :=
  match sample_bezsegs (some segments) (sample_rate : ℤ) with
  | .ok points => pairsLE (points.map Prod.fst)
  | .error _ => false

/-! ### The index bookkeeping of `sample_bezsegs` keeps every grid point -/

theorem indicesToKeep_flatMap (numSegments rate : ℕ) :
    (List.range numSegments).flatMap (fun i => List.range' (i * (rate + 1) + 1) (rate + 1))
      = List.range' 1 (numSegments * (rate + 1)) := by
  induction numSegments with
  | zero => simp
  | succ n ih =>
    rw [List.range_succ, List.flatMap_append, ih]
    simp only [List.flatMap_cons, List.flatMap_nil, List.append_nil]
    have h := List.range'_append 1 (n * (rate + 1)) (rate + 1) 1
    simp only [one_mul] at h
    rw [Nat.add_comm 1 (n * (rate + 1))] at h
    rw [h]
    congr 1
    ring

theorem filterMap_getElem (l : List (ℚ × ℚ)) :
    (List.range l.length).filterMap (fun i => l[i]?) = l := by
  induction l with
  | nil => simp
  | cons a l ih =>
    have h0 : List.range (a :: l).length = 0 :: (List.range l.length).map (· + 1) :=
      List.range_succ_eq_map l.length
    rw [h0, List.filterMap_cons, List.filterMap_map]
    have hcomp : ((fun i => (a :: l)[i]?) ∘ fun x => x + 1) = fun i => l[i]? := by
      funext x
      simp
    simp [hcomp, ih]

theorem sampleGrid_length (segs : List Seg) (rate : ℕ) :
    (sampleGrid segs rate).length = segs.length * (rate + 1) := by
  induction segs with
  | nil => simp [sampleGrid]
  | cons s t ih =>
    have hmaplen : ((linspace01 rate).map (bezPt s)).length = rate + 1 := by
      rw [List.length_map]
      unfold linspace01
      rw [List.length_map, List.length_range]
    simp only [sampleGrid, List.flatMap_cons] at *
    rw [List.length_append, hmaplen, ih, List.length_cons, Nat.succ_mul]
    omega

/-- The kept indices of `sample_bezsegs` are exactly `0, 1, ..., N*(rate+1)-1`:
the "duplicate removal" keeps the whole flattened grid. -/
theorem sampleCore_eq_grid (segs : List Seg) (rate : ℕ) :
    sampleCore segs rate = sampleGrid segs rate := by
  unfold sampleCore
  rw [sampleGrid_length]
  have hidx : indicesToKeep segs.length rate
      = List.range (segs.length * (rate + 1)) ++ [segs.length * (rate + 1)] := by
    unfold indicesToKeep
    rw [indicesToKeep_flatMap]
    rw [List.range_eq_range']
    have h1 : (0 :: List.range' 1 (segs.length * (rate + 1)) : List ℕ)
        = List.range' 0 (segs.length * (rate + 1) + 1) := rfl
    rw [h1, List.range'_1_concat]
    simp
  rw [hidx, List.filter_append]
  have h2 : (List.range (segs.length * (rate + 1))).filter
      (fun i => decide (i < segs.length * (rate + 1)))
      = List.range (segs.length * (rate + 1)) := by
    apply List.filter_eq_self.mpr
    intro a ha
    simpa using List.mem_range.mp ha
  have h3 : ([segs.length * (rate + 1)] : List ℕ).filter
      (fun i => decide (i < segs.length * (rate + 1))) = [] := by
    simp
  rw [h2, h3, List.append_nil, ← sampleGrid_length segs rate]
  exact filterMap_getElem (sampleGrid segs rate)

/-! ### Claim C9: the empty-input check precedes sampling-rate validation -/

/-- C9: `sample_bezsegs` checks for an empty input before validating
`sampling_rate`: a `None` or empty segments array yields an empty point list
for every `sampling_rate`, including rates below 1; only a non-empty input
with `sampling_rate < 1` raises `ValueError`. -/
theorem sample_bezsegs_empty_checked_before_rate :
    (∀ r : ℤ, sample_bezsegs none r = .ok [] ∧ sample_bezsegs (some []) r = .ok []) ∧
    (∀ (segs : List Seg) (r : ℤ), segs ≠ [] → r < 1 →
      sample_bezsegs (some segs) r = .error "sampling_rate must be at least 1") := by
  constructor
  · intro r
    exact ⟨rfl, by simp [sample_bezsegs]⟩
  · intro segs r hne hr
    simp [sample_bezsegs, hne, hr]

theorem sample_bezsegs_empty_checked_before_rate_witness :
    sample_bezsegs none (-3) = .ok [] ∧ sample_bezsegs (some []) (-3) = .ok [] ∧
    sample_bezsegs (some [⟨0, 0, 0, 0, 0, 0, 0, 0⟩]) 0
      = .error "sampling_rate must be at least 1" :=
  ⟨(sample_bezsegs_empty_checked_before_rate.1 (-3)).1,
   (sample_bezsegs_empty_checked_before_rate.1 (-3)).2,
   sample_bezsegs_empty_checked_before_rate.2 [⟨0, 0, 0, 0, 0, 0, 0, 0⟩] 0
     (by simp) (by norm_num)⟩

/-! ### Claim C4: the junction "duplicate removal" of `sample_bezsegs` -/

/-- C4 (evidence of the code bug): the kept-index bookkeeping of
`sample_bezsegs` keeps the `t = 0` point of every following segment, so for
two segments at `sampling_rate = 1` it returns all `N*(rate+1) = 4` grid
points — the junction point `(1, 1)` appears twice — instead of the
`N*rate + 1 = 3` deduplicated points promised by its own docstring. -/
theorem sample_bezsegs_junction_duplicate_bug :
    sample_bezsegs (some [⟨0, 0, 0, 0, 1, 1, 1, 1⟩, ⟨1, 1, 1, 1, 2, 2, 2, 2⟩]) 1
      = .ok [(0, 0), (1, 1), (1, 1), (2, 2)] ∧
    ([(0, 0), (1, 1), (1, 1), (2, 2)] : List (ℚ × ℚ)).length ≠ 2 * 1 + 1 := by
  constructor
  · rfl
  · decide

/-! ### Monotonicity of the Bezier x-coordinate under banded handles

`ensure_monotonic_bezsegs` clamps each segment's handle x-coordinates into the
band `[P0x, P3x]`.  The key analytic fact is that any cubic whose two inner
control x-coordinates lie in that band is non-decreasing on `[0, 1]`. -/

/-- One third of the derivative of `bezX`, as a quadratic in `u`. -/
def qd (s : Seg) (u : ℚ) : ℚ :=
  (s.p1x - s.p0x) * (1 - u) ^ 2 + 2 * (s.p2x - s.p1x) * u * (1 - u)
    + (s.p3x - s.p2x) * u ^ 2

/-- Exact Simpson rule for the cubic `bezX`. -/
theorem bezX_sub_eq (s : Seg) (a b : ℚ) :
    bezX s b - bezX s a
      = (b - a) / 2 * (qd s a + 4 * qd s ((a + b) / 2) + qd s b) := by
  unfold bezX qd
  ring

/-- Both handle x-coordinates lie inside the anchor band `[P0x, P3x]`. -/
def SegMonoX (s : Seg) : Prop :=
  s.p0x ≤ s.p1x ∧ s.p1x ≤ s.p3x ∧ s.p0x ≤ s.p2x ∧ s.p2x ≤ s.p3x

theorem qd_nonneg {s : Seg} (h : SegMonoX s) {u : ℚ} (h0 : 0 ≤ u) (h1 : u ≤ 1) :
    0 ≤ qd s u := by
  obtain ⟨a1, a2, a3, a4⟩ := h
  unfold qd
  rcases le_or_lt s.p1x s.p2x with hmid | hmid
  · have t1 : 0 ≤ (s.p1x - s.p0x) * (1 - u) ^ 2 := by nlinarith [sq_nonneg (1 - u)]
    have t2 : 0 ≤ 2 * (s.p2x - s.p1x) * u * (1 - u) := by
      have h2 := mul_nonneg (mul_nonneg
        (by linarith : (0:ℚ) ≤ 2 * (s.p2x - s.p1x)) h0) (by linarith : (0:ℚ) ≤ 1 - u)
      linarith
    have t3 : 0 ≤ (s.p3x - s.p2x) * u ^ 2 := by nlinarith [sq_nonneg u]
    linarith
  · have key : (s.p1x - s.p2x) ^ 2 ≤ (s.p1x - s.p0x) * (s.p3x - s.p2x) := by nlinarith
    have hd1 : 0 < s.p1x - s.p0x := by linarith
    have hq : 0 ≤ (s.p1x - s.p0x) *
        ((s.p1x - s.p0x) * (1 - u) ^ 2 + 2 * (s.p2x - s.p1x) * u * (1 - u)
          + (s.p3x - s.p2x) * u ^ 2) := by
      nlinarith [sq_nonneg ((s.p1x - s.p0x) * (1 - u) + (s.p2x - s.p1x) * u), sq_nonneg u, key]
    nlinarith [hq, hd1]

/-- A segment with banded handles has a non-decreasing x-coordinate on [0, 1]. -/
theorem bezX_mono {s : Seg} (h : SegMonoX s) {a b : ℚ}
    (h0 : 0 ≤ a) (hab : a ≤ b) (hb : b ≤ 1) : bezX s a ≤ bezX s b := by
  have q1 := qd_nonneg h h0 (le_trans hab hb)
  have q2 := qd_nonneg h (by linarith : (0:ℚ) ≤ (a + b) / 2) (by linarith : (a + b) / 2 ≤ 1)
  have q3 := qd_nonneg h (le_trans h0 hab) hb
  have hprod : 0 ≤ (b - a) / 2 * (qd s a + 4 * qd s ((a + b) / 2) + qd s b) :=
    mul_nonneg (by linarith) (by linarith)
  have hid := bezX_sub_eq s a b
  linarith

theorem bezX_zero (s : Seg) : bezX s 0 = s.p0x := by
  unfold bezX
  ring

theorem bezX_one (s : Seg) : bezX s 1 = s.p3x := by
  unfold bezX
  ring

theorem pairsLE_iff_chain : ∀ l : List ℚ, pairsLE l = true ↔ l.Chain' (· ≤ ·)
  | [] => by simp [pairsLE]
  | [x] => by simp [pairsLE]
  | x :: y :: rest => by
    simp only [pairsLE, Bool.and_eq_true, decide_eq_true_eq, List.chain'_cons]
    exact and_congr Iff.rfl (pairsLE_iff_chain (y :: rest))

/-- The x-coordinates sampled from one banded segment are non-decreasing. -/
theorem chain_block {s : Seg} (h : SegMonoX s) (rate : ℕ) :
    (((linspace01 rate).map (bezPt s)).map Prod.fst).Chain' (· ≤ ·) := by
  rw [List.map_map]
  have hfst : (Prod.fst ∘ bezPt s) = bezX s := rfl
  rw [hfst]
  unfold linspace01
  rw [List.map_map]
  rcases Nat.eq_zero_or_pos rate with h0 | hpos
  · subst h0
    rw [show List.range 1 = [0] from rfl]
    simp [List.chain'_singleton]
  · have hr : (0:ℚ) < (rate : ℚ) := by exact_mod_cast hpos
    rw [show rate + 1 = Nat.succ rate from rfl, List.chain'_map, List.chain'_range_succ]
    intro m hm
    apply bezX_mono h
    · positivity
    · apply (div_le_div_iff_of_pos_right hr).mpr
      exact_mod_cast Nat.le_succ m
    · rw [div_le_one hr]
      exact_mod_cast hm

/-- Consecutive segments are linked: the end anchor x of one is the start
anchor x of the next. -/
def AdjX (s s2 : Seg) : Prop :=
  s.p3x = s2.p0x

/-- The x-coordinates of the whole sampled grid are non-decreasing for a list
of banded segments whose anchors are linked. -/
theorem grid_chain {segs : List Seg} {rate : ℕ} (hrate : 1 ≤ rate)
    (hall : ∀ s ∈ segs, SegMonoX s) (hchain : segs.Chain' AdjX) :
    ((sampleGrid segs rate).map Prod.fst).Chain' (· ≤ ·) := by
  induction segs with
  | nil => simp [sampleGrid]
  | cons s rest ih =>
    have hs : SegMonoX s := hall s (List.mem_cons_self s rest)
    have hrest : ∀ s2 ∈ rest, SegMonoX s2 := fun s2 hs2 => hall s2 (List.mem_cons_of_mem s hs2)
    have hchainrest : rest.Chain' AdjX := (List.chain'_cons'.mp hchain).2
    have hgrid : sampleGrid (s :: rest) rate
        = (linspace01 rate).map (bezPt s) ++ sampleGrid rest rate := rfl
    rw [hgrid, List.map_append, List.chain'_append]
    refine ⟨chain_block hs rate, ih hrest hchainrest, ?_⟩
    intro x hx y hy
    -- the last sampled x of `s` is `s.p3x`
    have hrq : (rate : ℚ) ≠ 0 := by
      have : (0:ℚ) < (rate : ℚ) := by exact_mod_cast hrate
      exact ne_of_gt this
    have hlast : (((linspace01 rate).map (bezPt s)).map Prod.fst).getLast? = some s.p3x := by
      rw [List.map_map]
      have hfst : (Prod.fst ∘ bezPt s) = bezX s := rfl
      rw [hfst]
      unfold linspace01
      rw [List.map_map, List.range_succ, List.map_append, List.map_cons, List.map_nil,
        List.getLast?_concat]
      simp only [Function.comp, Option.some.injEq]
      rw [div_self hrq, bezX_one]
    -- the first sampled x of the rest (if any) is the start anchor of its head
    rcases rest with _ | ⟨r0, rest2⟩
    · simp [sampleGrid] at hy
    · have hadj : s.p3x = r0.p0x := (List.chain'_cons.mp hchain).1
      have hhead : ((sampleGrid (r0 :: rest2) rate).map Prod.fst).head? = some r0.p0x := by
        have hgrid2 : sampleGrid (r0 :: rest2) rate
            = (linspace01 rate).map (bezPt r0) ++ sampleGrid rest2 rate := rfl
        rw [hgrid2, List.map_append]
        have hne : (((linspace01 rate).map (bezPt r0)).map Prod.fst) ≠ [] := by
          simp [linspace01]
        rw [List.head?_append_of_ne_nil _ hne]
        rw [List.map_map]
        have hfst : (Prod.fst ∘ bezPt r0) = bezX r0 := rfl
        rw [hfst]
        unfold linspace01
        rw [List.map_map, List.range_succ_eq_map]
        simp only [List.map_cons, List.head?_cons, Option.some.injEq, Function.comp]
        rw [show ((0:ℕ):ℚ) = 0 from rfl, zero_div, bezX_zero]
      rw [hlast] at hx
      rw [hhead] at hy
      simp only [Option.mem_def, Option.some.injEq] at hx hy
      rw [← hx, ← hy, hadj]

/-- For a valid rate and non-empty input, `sample_bezsegs` succeeds and returns
the whole flattened grid of Bezier points. -/
theorem sample_bezsegs_ok {segs : List Seg} {rate : ℕ} (hrate : 1 ≤ rate) (hne : segs ≠ []) :
    sample_bezsegs (some segs) (rate : ℤ) = .ok (sampleGrid segs rate) := by
  have hlt : ¬ ((rate : ℤ) < 1) := by
    apply not_lt.mpr
    exact_mod_cast hrate
  simp only [sample_bezsegs]
  rw [if_neg hne, if_neg hlt, Int.toNat_natCast, sampleCore_eq_grid]

/-- A list of banded, linked segments passes `is_bezsegs_monotonic` at any
sampling rate of at least 1. -/
theorem is_monotonic_of_chain {segs : List Seg} {rate : ℕ} (hrate : 1 ≤ rate)
    (hall : ∀ s ∈ segs, SegMonoX s) (hchain : segs.Chain' AdjX) :
    is_bezsegs_monotonic segs rate = true := by
  by_cases hne : segs = []
  · subst hne
    simp [is_bezsegs_monotonic, sample_bezsegs, pairsLE]
  · unfold is_bezsegs_monotonic
    rw [sample_bezsegs_ok hrate hne]
    exact (pairsLE_iff_chain _).mpr (grid_chain hrate hall hchain)

/-! ### `ensure_monotonic_bezsegs`: deconstruct, sort, rebuild, clamp, push -/

/-- One row `[Ax, Ay, HLx, HLy, HRx, HRy]` of the `anchor_handle_data` array
built by `ensure_monotonic_bezsegs`. -/
structure Anchor where
  ax : ℚ
  ay : ℚ
  hlx : ℚ
  hly : ℚ
  hrx : ℚ
  hry : ℚ
deriving DecidableEq, Repr

/-- Anchor records after the first one: the end anchor of each segment with
its left handle `P2`; the right handle is `P1` of the following segment, or
the anchor's own location for the last anchor. -/
def anchorsTail : Seg → List Seg → List Anchor
  | s, [] => [⟨s.p3x, s.p3y, s.p2x, s.p2y, s.p3x, s.p3y⟩]
  | s, s2 :: rest => ⟨s.p3x, s.p3y, s.p2x, s.p2y, s2.p1x, s2.p1y⟩ :: anchorsTail s2 rest

/-- All `N+1` anchor records of a segments array; the first anchor's left
handle defaults to its own location and its right handle is `P1` of the first
segment. -/
def anchorsOf : List Seg → List Anchor
  | [] => []
  | s :: rest => ⟨s.p0x, s.p0y, s.p0x, s.p0y, s.p1x, s.p1y⟩ :: anchorsTail s rest

/-- `np.argsort` on the anchor x-coordinates followed by taking the rows in
that order: a permutation of the anchors that is sorted by `ax`. -/
def sortAnchors (l : List Anchor) : List Anchor :=
  l.mergeSort (fun a b => decide (a.ax ≤ b.ax))

/-- Rebuild segments from consecutive sorted anchors: `P0` is anchor `i`,
`P1` its right handle, `P2` the left handle of anchor `i+1`, `P3` anchor
`i+1`. -/
def rebuildSegs : List Anchor → List Seg
  | a :: b :: rest =>
    ⟨a.ax, a.ay, a.hrx, a.hry, b.hlx, b.hly, b.ax, b.ay⟩ :: rebuildSegs (b :: rest)
  | _ => []

/-- `np.clip(x, lo, hi)`. -/
def qclip (x lo hi : ℚ) : ℚ :=
  min (max x lo) hi

/-- Step 4 of `ensure_monotonic_bezsegs` for one segment: clip both handle
x-coordinates into `[min(P0x, P3x), max(P0x, P3x)]`, collapsing both to their
midpoint when they cross. -/
def clampSeg (s : Seg) : Seg :=
  if qclip s.p2x (min s.p0x s.p3x) (max s.p0x s.p3x)
      < qclip s.p1x (min s.p0x s.p3x) (max s.p0x s.p3x) then
    { s with
      p1x := (qclip s.p1x (min s.p0x s.p3x) (max s.p0x s.p3x)
        + qclip s.p2x (min s.p0x s.p3x) (max s.p0x s.p3x)) / 2
      p2x := (qclip s.p1x (min s.p0x s.p3x) (max s.p0x s.p3x)
        + qclip s.p2x (min s.p0x s.p3x) (max s.p0x s.p3x)) / 2 }
  else
    { s with
      p1x := qclip s.p1x (min s.p0x s.p3x) (max s.p0x s.p3x)
      p2x := qclip s.p2x (min s.p0x s.p3x) (max s.p0x s.p3x) }

/-- `np.sign`. -/
def qsign (x : ℚ) : ℚ :=
  if 0 < x then 1 else if x < 0 then -1 else 0

/-- Step 5 of `ensure_monotonic_bezsegs` for the first segment: when `P1x`
coincides with `P0x` within `1e-7`, push it by `1e-6` towards `P3x` (to the
right for a degenerate segment) and re-clip it into the segment's x-range. -/
def pushStartSeg (s : Seg) : Seg :=
  if |s.p1x - s.p0x| < 1e-7 then
    { s with
      p1x := qclip (s.p1x + 1e-6 * (if qsign (s.p3x - s.p0x) = 0 then 1
          else qsign (s.p3x - s.p0x)))
        (min s.p0x s.p3x) (max s.p0x s.p3x) }
  else s

/-- Step 5 of `ensure_monotonic_bezsegs` for the last segment: when `P2x`
coincides with `P3x` within `1e-7`, push it by `1e-6` towards `P0x` (to the
left for a degenerate segment) and re-clip it into the segment's x-range. -/
def pushEndSeg (s : Seg) : Seg :=
  if |s.p2x - s.p3x| < 1e-7 then
    { s with
      p2x := qclip (s.p2x + 1e-6 * (if qsign (s.p0x - s.p3x) = 0 then -1
          else qsign (s.p0x - s.p3x)))
        (min s.p0x s.p3x) (max s.p0x s.p3x) }
  else s

/-- Apply `f` to the first row only (`sorted_segments[0]`). -/
def applyHead (f : Seg → Seg) : List Seg → List Seg
  | [] => []
  | s :: rest => f s :: rest

/-- Apply `f` to the last row only (`sorted_segments[-1]`). -/
def applyLast (f : Seg → Seg) : List Seg → List Seg
  | [] => []
  | [s] => [f s]
  | s :: s2 :: rest => s :: applyLast f (s2 :: rest)

/-- The sort-rebuild-clamp-push pipeline run when the input is not already
monotonic. -/
def ensureCore (segs : List Seg) : List Seg :=
  applyLast pushEndSeg
    (applyHead pushStartSeg ((rebuildSegs (sortAnchors (anchorsOf segs))).map clampSeg))

/-- `ensure_monotonic_bezsegs(segments)`: return the input unchanged when it
is already monotonic (checked at the default sample rate 500), otherwise sort
the anchors by x and clamp the handles. -/
def ensure_monotonic_bezsegs (segments : List Seg) : List Seg :=
  if is_bezsegs_monotonic segments 500 then segments else ensureCore segments

/-! ### The pipeline output is banded and linked -/

theorem sortAnchors_chain (l : List Anchor) :
    (sortAnchors l).Chain' (fun a b => a.ax ≤ b.ax) := by
  have hs := @List.sorted_mergeSort _ (fun a b => decide (a.ax ≤ b.ax))
    (fun a b c hab hbc => by
      simp only [decide_eq_true_eq] at *
      linarith)
    (fun a b => by
      simp only [Bool.or_eq_true, decide_eq_true_eq]
      exact le_total a.ax b.ax) l
  refine List.Chain'.imp ?_ hs.chain'
  intro a b h
  simpa using h

theorem rebuildSegs_head : ∀ (b : Anchor) (rest : List Anchor),
    ∀ x ∈ (rebuildSegs (b :: rest)).head?, x.p0x = b.ax := by
  intro b rest
  cases rest with
  | nil => simp [rebuildSegs]
  | cons c rest2 =>
    intro x hx
    simp only [rebuildSegs, List.head?_cons, Option.mem_def, Option.some.injEq] at hx
    rw [← hx]

theorem rebuildSegs_sound : ∀ l : List Anchor, l.Chain' (fun a b => a.ax ≤ b.ax) →
    (∀ s ∈ rebuildSegs l, s.p0x ≤ s.p3x) ∧ (rebuildSegs l).Chain' AdjX
  | [] => by intro _; simp [rebuildSegs]
  | [a] => by intro _; simp [rebuildSegs]
  | a :: b :: rest => by
    intro hchain
    have hab : a.ax ≤ b.ax := (List.chain'_cons.mp hchain).1
    have hrest := rebuildSegs_sound (b :: rest) (List.chain'_cons.mp hchain).2
    constructor
    · intro s hs
      rcases List.mem_cons.mp hs with hs | hs
      · rw [hs]
        exact hab
      · exact hrest.1 s hs
    · show List.Chain' AdjX (_ :: rebuildSegs (b :: rest))
      apply List.chain'_cons'.mpr
      refine ⟨?_, hrest.2⟩
      intro y hy
      show (⟨a.ax, a.ay, a.hrx, a.hry, b.hlx, b.hly, b.ax, b.ay⟩ : Seg).p3x = y.p0x
      rw [rebuildSegs_head b rest y hy]

theorem qclip_bounds {x lo hi : ℚ} (h : lo ≤ hi) :
    lo ≤ qclip x lo hi ∧ qclip x lo hi ≤ hi := by
  unfold qclip
  exact ⟨le_min (le_max_right x lo) h, min_le_right _ _⟩

theorem clampSeg_p0x (s : Seg) : (clampSeg s).p0x = s.p0x := by
  unfold clampSeg
  split <;> rfl

theorem clampSeg_p3x (s : Seg) : (clampSeg s).p3x = s.p3x := by
  unfold clampSeg
  split <;> rfl

theorem clampSeg_SegMonoX {s : Seg} (h : s.p0x ≤ s.p3x) : SegMonoX (clampSeg s) := by
  have hmin : min s.p0x s.p3x = s.p0x := min_eq_left h
  have hmax : max s.p0x s.p3x = s.p3x := max_eq_right h
  have h1 := @qclip_bounds s.p1x _ _ (@min_le_max ℚ _ s.p0x s.p3x)
  have h2 := @qclip_bounds s.p2x _ _ (@min_le_max ℚ _ s.p0x s.p3x)
  rw [hmin, hmax] at h1 h2
  unfold SegMonoX clampSeg
  split <;>
    refine ⟨?_, ?_, ?_, ?_⟩ <;>
      simp only [hmin, hmax] at * <;>
        linarith [h1.1, h1.2, h2.1, h2.2]

theorem pushStartSeg_p0x (s : Seg) : (pushStartSeg s).p0x = s.p0x := by
  unfold pushStartSeg
  split <;> rfl

theorem pushStartSeg_p3x (s : Seg) : (pushStartSeg s).p3x = s.p3x := by
  unfold pushStartSeg
  split <;> rfl

theorem pushEndSeg_p0x (s : Seg) : (pushEndSeg s).p0x = s.p0x := by
  unfold pushEndSeg
  split <;> rfl

theorem pushEndSeg_p3x (s : Seg) : (pushEndSeg s).p3x = s.p3x := by
  unfold pushEndSeg
  split <;> rfl

theorem pushStartSeg_SegMonoX {s : Seg} (h : SegMonoX s) : SegMonoX (pushStartSeg s) := by
  obtain ⟨a1, a2, a3, a4⟩ := h
  have h03 : s.p0x ≤ s.p3x := le_trans a1 a2
  have hmin : min s.p0x s.p3x = s.p0x := min_eq_left h03
  have hmax : max s.p0x s.p3x = s.p3x := max_eq_right h03
  have hq := @qclip_bounds
    (s.p1x + 1e-6 * (if qsign (s.p3x - s.p0x) = 0 then 1 else qsign (s.p3x - s.p0x))) _ _
    (@min_le_max ℚ _ s.p0x s.p3x)
  unfold SegMonoX pushStartSeg
  split
  · simp only [hmin, hmax] at *
    exact ⟨hq.1, hq.2, a3, a4⟩
  · exact ⟨a1, a2, a3, a4⟩

theorem pushEndSeg_SegMonoX {s : Seg} (h : SegMonoX s) : SegMonoX (pushEndSeg s) := by
  obtain ⟨a1, a2, a3, a4⟩ := h
  have h03 : s.p0x ≤ s.p3x := le_trans a1 a2
  have hmin : min s.p0x s.p3x = s.p0x := min_eq_left h03
  have hmax : max s.p0x s.p3x = s.p3x := max_eq_right h03
  have hq := @qclip_bounds
    (s.p2x + 1e-6 * (if qsign (s.p0x - s.p3x) = 0 then -1 else qsign (s.p0x - s.p3x))) _ _
    (@min_le_max ℚ _ s.p0x s.p3x)
  unfold SegMonoX pushEndSeg
  split
  · simp only [hmin, hmax] at *
    exact ⟨a1, a2, hq.1, hq.2⟩
  · exact ⟨a1, a2, a3, a4⟩

theorem applyHead_good {f : Seg → Seg}
    (hf3 : ∀ s, (f s).p3x = s.p3x) (hfm : ∀ s, SegMonoX s → SegMonoX (f s)) :
    ∀ {l : List Seg}, (∀ s ∈ l, SegMonoX s) → l.Chain' AdjX →
      (∀ s ∈ applyHead f l, SegMonoX s) ∧ (applyHead f l).Chain' AdjX := by
  intro l hall hchain
  cases l with
  | nil => exact ⟨hall, hchain⟩
  | cons s rest =>
    constructor
    · intro x hx
      rcases List.mem_cons.mp hx with hx | hx
      · rw [hx]
        exact hfm s (hall s (List.mem_cons_self s rest))
      · exact hall x (List.mem_cons_of_mem s hx)
    · show List.Chain' AdjX (f s :: rest)
      apply List.chain'_cons'.mpr
      refine ⟨?_, (List.chain'_cons'.mp hchain).2⟩
      intro y hy
      show (f s).p3x = y.p0x
      rw [hf3]
      exact (List.chain'_cons'.mp hchain).1 y hy

theorem applyLast_head {f : Seg → Seg} (hf0 : ∀ s, (f s).p0x = s.p0x) :
    ∀ (l : List Seg), ∀ x ∈ (applyLast f l).head?, ∀ y ∈ l.head?, x.p0x = y.p0x := by
  intro l
  match l with
  | [] => simp [applyLast]
  | [s] =>
    intro x hx y hy
    simp only [applyLast, List.head?_cons, Option.mem_def, Option.some.injEq] at hx hy
    rw [← hx, ← hy, hf0]
  | s :: s2 :: rest =>
    intro x hx y hy
    simp only [applyLast, List.head?_cons, Option.mem_def, Option.some.injEq] at hx hy
    rw [← hx, ← hy]

theorem applyLast_good {f : Seg → Seg} (hf0 : ∀ s, (f s).p0x = s.p0x)
    (hfm : ∀ s, SegMonoX s → SegMonoX (f s)) :
    ∀ (l : List Seg), (∀ s ∈ l, SegMonoX s) → l.Chain' AdjX →
      (∀ s ∈ applyLast f l, SegMonoX s) ∧ (applyLast f l).Chain' AdjX
  | [] => by
    intro hall hchain
    exact ⟨hall, hchain⟩
  | [s] => by
    intro hall _
    constructor
    · intro x hx
      simp only [applyLast, List.mem_singleton] at hx
      rw [hx]
      exact hfm s (hall s (by simp))
    · simp [applyLast]
  | s :: s2 :: rest => by
    intro hall hchain
    have hrest := applyLast_good hf0 hfm (s2 :: rest)
      (fun x hx => hall x (List.mem_cons_of_mem s hx)) (List.chain'_cons.mp hchain).2
    constructor
    · intro x hx
      rcases List.mem_cons.mp hx with hx | hx
      · rw [hx]
        exact hall s (by simp)
      · exact hrest.1 x hx
    · show List.Chain' AdjX (s :: applyLast f (s2 :: rest))
      apply List.chain'_cons'.mpr
      refine ⟨?_, hrest.2⟩
      intro y hy
      show s.p3x = y.p0x
      rw [applyLast_head hf0 (s2 :: rest) y hy s2 (by simp)]
      exact (List.chain'_cons.mp hchain).1

/-- Every output segment of the sort-rebuild-clamp-push pipeline has banded
handles, and consecutive outputs share their anchor x-coordinate. -/
theorem ensureCore_good (segs : List Seg) :
    (∀ s ∈ ensureCore segs, SegMonoX s) ∧ (ensureCore segs).Chain' AdjX := by
  have hre := rebuildSegs_sound (sortAnchors (anchorsOf segs)) (sortAnchors_chain _)
  have hmap_mono : ∀ s ∈ (rebuildSegs (sortAnchors (anchorsOf segs))).map clampSeg,
      SegMonoX s := by
    intro x hx
    rcases List.mem_map.mp hx with ⟨a, ha, rfl⟩
    exact clampSeg_SegMonoX (hre.1 a ha)
  have hmap_chain : ((rebuildSegs (sortAnchors (anchorsOf segs))).map clampSeg).Chain' AdjX := by
    apply List.chain'_map_of_chain' clampSeg ?_ hre.2
    intro a b hab
    show (clampSeg a).p3x = (clampSeg b).p0x
    rw [clampSeg_p3x, clampSeg_p0x]
    exact hab
  have hhead := applyHead_good pushStartSeg_p3x (fun s => pushStartSeg_SegMonoX)
    hmap_mono hmap_chain
  exact applyLast_good pushEndSeg_p0x (fun s => pushEndSeg_SegMonoX) _ hhead.1 hhead.2

/-! ### Claim C1: `ensure_monotonic_bezsegs` produces a monotonic curve -/

/-- C1: for every non-empty segments array, the array returned by
`ensure_monotonic_bezsegs` represents a curve monotonic in x:
`is_bezsegs_monotonic` (at its default sample rate 500) holds on the result,
because anchors are sorted by x and the output handle x-coordinates are kept
inside each segment's anchor band. -/
theorem ensure_monotonic_bezsegs_monotonic (segments : List Seg) (hne : segments ≠ []) :
    is_bezsegs_monotonic (ensure_monotonic_bezsegs segments) 500 = true := by
  unfold ensure_monotonic_bezsegs
  by_cases h : is_bezsegs_monotonic segments 500 = true
  · rw [if_pos h]
    exact h
  · rw [if_neg h]
    obtain ⟨hall, hchain⟩ := ensureCore_good segments
    exact is_monotonic_of_chain (by norm_num) hall hchain

theorem ensure_monotonic_bezsegs_monotonic_witness :
    ([(⟨0, 0, 0, 0, 0, 0, 0, 0⟩ : Seg)] ≠ []) ∧
      is_bezsegs_monotonic (ensure_monotonic_bezsegs [⟨0, 0, 0, 0, 0, 0, 0, 0⟩]) 500 = true :=
  ⟨by simp, ensure_monotonic_bezsegs_monotonic [⟨0, 0, 0, 0, 0, 0, 0, 0⟩] (by simp)⟩

/-! ### Claim C2: `casteljau_subdiv_bezsegs` -/

/-- `Q0 = P0*(1-t) + P1*t` of the de Casteljau construction. -/
def cjQ0 (s : Seg) (tc : ℚ) : ℚ × ℚ :=
  (s.p0x * (1 - tc) + s.p1x * tc, s.p0y * (1 - tc) + s.p1y * tc)

/-- `Q1 = P1*(1-t) + P2*t`. -/
def cjQ1 (s : Seg) (tc : ℚ) : ℚ × ℚ :=
  (s.p1x * (1 - tc) + s.p2x * tc, s.p1y * (1 - tc) + s.p2y * tc)

/-- `Q2 = P2*(1-t) + P3*t`. -/
def cjQ2 (s : Seg) (tc : ℚ) : ℚ × ℚ :=
  (s.p2x * (1 - tc) + s.p3x * tc, s.p2y * (1 - tc) + s.p3y * tc)

/-- `R0 = Q0*(1-t) + Q1*t`. -/
def cjR0 (s : Seg) (tc : ℚ) : ℚ × ℚ :=
  ((cjQ0 s tc).1 * (1 - tc) + (cjQ1 s tc).1 * tc,
   (cjQ0 s tc).2 * (1 - tc) + (cjQ1 s tc).2 * tc)

/-- `R1 = Q1*(1-t) + Q2*t`. -/
def cjR1 (s : Seg) (tc : ℚ) : ℚ × ℚ :=
  ((cjQ1 s tc).1 * (1 - tc) + (cjQ2 s tc).1 * tc,
   (cjQ1 s tc).2 * (1 - tc) + (cjQ2 s tc).2 * tc)

/-- `S = R0*(1-t) + R1*t`: the split point on the curve. -/
def cjS (s : Seg) (tc : ℚ) : ℚ × ℚ :=
  ((cjR0 s tc).1 * (1 - tc) + (cjR1 s tc).1 * tc,
   (cjR0 s tc).2 * (1 - tc) + (cjR1 s tc).2 * tc)

/-- First potential sub-segment `[P0, Q0, R0, S]`; the geometry uses the
parameter clipped into `[0, 1]` as in the code. -/
def casteljauChild1 (s : Seg) (t : ℚ) : Seg :=
  ⟨s.p0x, s.p0y,
   (cjQ0 s (qclip t 0 1)).1, (cjQ0 s (qclip t 0 1)).2,
   (cjR0 s (qclip t 0 1)).1, (cjR0 s (qclip t 0 1)).2,
   (cjS s (qclip t 0 1)).1, (cjS s (qclip t 0 1)).2⟩

/-- Second potential sub-segment `[S, R1, Q2, P3]`. -/
def casteljauChild2 (s : Seg) (t : ℚ) : Seg :=
  ⟨(cjS s (qclip t 0 1)).1, (cjS s (qclip t 0 1)).2,
   (cjR1 s (qclip t 0 1)).1, (cjR1 s (qclip t 0 1)).2,
   (cjQ2 s (qclip t 0 1)).1, (cjQ2 s (qclip t 0 1)).2,
   s.p3x, s.p3y⟩

/-- Per-segment output of `casteljau_subdiv_bezsegs`: the two children when
the raw `t` is inside `(tolerance, 1 - tolerance)`, otherwise the original
segment. -/
def subdivPiece (s : Seg) (t tolerance : ℚ) : List Seg :=
  if tolerance < t ∧ t < 1 - tolerance then [casteljauChild1 s t, casteljauChild2 s t]
  else [s]

/-- `casteljau_subdiv_bezsegs(segments, t_map, tolerance)`: raises when the
`t_map` length does not match, otherwise concatenates the per-segment
pieces. -/
def casteljau_subdiv_bezsegs (segments : List Seg) (t_map : List ℚ) (tolerance : ℚ) :
    Except String (List Seg) :=
  if t_map.length ≠ segments.length then .error "t_map shape mismatch"
  else .ok ((segments.zip t_map).flatMap (fun p => subdivPiece p.1 p.2 tolerance))

theorem qclip01_id {t : ℚ} (h0 : 0 ≤ t) (h1 : t ≤ 1) : qclip t 0 1 = t := by
  unfold qclip
  rw [max_eq_left h0, min_eq_left h1]

/-- C2: with a matching `t_map`, `casteljau_subdiv_bezsegs` replaces each
segment whose `t` lies in `(tolerance, 1 - tolerance)` by its two de Casteljau
children — which trace exactly the parent curve, the first on `[0, t]` and the
second on `[t, 1]` — and passes every other segment through unchanged. -/
theorem casteljau_subdiv_correct :
    (∀ (segments : List Seg) (t_map : List ℚ) (tolerance : ℚ),
      t_map.length = segments.length →
      casteljau_subdiv_bezsegs segments t_map tolerance
        = .ok ((segments.zip t_map).flatMap (fun p => subdivPiece p.1 p.2 tolerance))) ∧
    (∀ (s : Seg) (t tolerance : ℚ), 0 < tolerance → tolerance < t → t < 1 - tolerance →
      subdivPiece s t tolerance = [casteljauChild1 s t, casteljauChild2 s t] ∧
      ∀ u : ℚ, 0 ≤ u → u ≤ 1 →
        bezPt (casteljauChild1 s t) u = bezPt s (u * t) ∧
        bezPt (casteljauChild2 s t) u = bezPt s (t + u * (1 - t))) ∧
    (∀ (s : Seg) (t tolerance : ℚ), ¬ (tolerance < t ∧ t < 1 - tolerance) →
      subdivPiece s t tolerance = [s]) := by
  refine ⟨?_, ?_, ?_⟩
  · intro segments t_map tolerance hlen
    unfold casteljau_subdiv_bezsegs
    rw [if_neg (by omega)]
  · intro s t tolerance htol h1 h2
    have ht : qclip t 0 1 = t := qclip01_id (by linarith) (by linarith)
    constructor
    · unfold subdivPiece
      rw [if_pos ⟨h1, h2⟩]
    · intro u hu0 hu1
      constructor
      · simp only [bezPt, bezX, bezY, casteljauChild1, cjS, cjR0, cjR1, cjQ0, cjQ1, cjQ2, ht,
          Prod.mk.injEq]
        constructor <;> ring
      · simp only [bezPt, bezX, bezY, casteljauChild2, cjS, cjR0, cjR1, cjQ0, cjQ1, cjQ2, ht,
          Prod.mk.injEq]
        constructor <;> ring
  · intro s t tolerance hnot
    unfold subdivPiece
    rw [if_neg hnot]

theorem casteljau_subdiv_correct_witness :
    casteljau_subdiv_bezsegs [⟨0, 0, 0, 0, 1, 1, 1, 1⟩] [(1:ℚ)/2] (1e-6)
      = .ok (([(⟨0, 0, 0, 0, 1, 1, 1, 1⟩ : Seg)].zip [(1:ℚ)/2]).flatMap
          (fun p => subdivPiece p.1 p.2 (1e-6))) ∧
    subdivPiece (⟨0, 0, 0, 0, 1, 1, 1, 1⟩ : Seg) ((1:ℚ)/2) (1e-6)
      = [casteljauChild1 ⟨0, 0, 0, 0, 1, 1, 1, 1⟩ ((1:ℚ)/2),
         casteljauChild2 ⟨0, 0, 0, 0, 1, 1, 1, 1⟩ ((1:ℚ)/2)] ∧
    bezPt (casteljauChild1 ⟨0, 0, 0, 0, 1, 1, 1, 1⟩ ((1:ℚ)/2)) ((1:ℚ)/3)
      = bezPt ⟨0, 0, 0, 0, 1, 1, 1, 1⟩ ((1:ℚ)/3 * ((1:ℚ)/2)) ∧
    bezPt (casteljauChild2 ⟨0, 0, 0, 0, 1, 1, 1, 1⟩ ((1:ℚ)/2)) ((1:ℚ)/3)
      = bezPt ⟨0, 0, 0, 0, 1, 1, 1, 1⟩ ((1:ℚ)/2 + (1:ℚ)/3 * (1 - (1:ℚ)/2)) ∧
    subdivPiece (⟨0, 0, 0, 0, 1, 1, 1, 1⟩ : Seg) 0 (1e-6) = [⟨0, 0, 0, 0, 1, 1, 1, 1⟩] :=
  ⟨casteljau_subdiv_correct.1 [⟨0, 0, 0, 0, 1, 1, 1, 1⟩] [(1:ℚ)/2] (1e-6) (by simp),
   (casteljau_subdiv_correct.2.1 ⟨0, 0, 0, 0, 1, 1, 1, 1⟩ ((1:ℚ)/2) (1e-6)
     (by norm_num) (by norm_num) (by norm_num)).1,
   ((casteljau_subdiv_correct.2.1 ⟨0, 0, 0, 0, 1, 1, 1, 1⟩ ((1:ℚ)/2) (1e-6)
     (by norm_num) (by norm_num) (by norm_num)).2 ((1:ℚ)/3) (by norm_num) (by norm_num)).1,
   ((casteljau_subdiv_correct.2.1 ⟨0, 0, 0, 0, 1, 1, 1, 1⟩ ((1:ℚ)/2) (1e-6)
     (by norm_num) (by norm_num) (by norm_num)).2 ((1:ℚ)/3) (by norm_num) (by norm_num)).2,
   casteljau_subdiv_correct.2.2 ⟨0, 0, 0, 0, 1, 1, 1, 1⟩ 0 (1e-6) (by norm_num)⟩

/-! ### Claim C10: `extend_bezsegs` -/

/-- The two valid extension modes of `extend_bezsegs`. -/
inductive ExtendMode
  | HANDLE
  | HORIZONTAL
deriving DecidableEq, Repr

/-- y-coordinate of the new start point for a left extension: follow the
start tangent `P0 - P1`, falling back to a horizontal extension when the
tangent's x-component is within `tolerance` of zero. -/
def extendNewYLeft (s0 : Seg) (xlocation tolerance : ℚ) (mode : ExtendMode) : ℚ :=
  match mode with
  | .HORIZONTAL => s0.p0y
  | .HANDLE =>
    if |s0.p0x - s0.p1x| < tolerance then s0.p0y
    else s0.p0y + (xlocation - s0.p0x) / (s0.p0x - s0.p1x) * (s0.p0y - s0.p1y)

/-- y-coordinate of the new end point for a right extension: follow the end
tangent `P3 - P2`, with the same horizontal fallback. -/
def extendNewYRight (sl : Seg) (xlocation tolerance : ℚ) (mode : ExtendMode) : ℚ :=
  match mode with
  | .HORIZONTAL => sl.p3y
  | .HANDLE =>
    if |sl.p3x - sl.p2x| < tolerance then sl.p3y
    else sl.p3y + (xlocation - sl.p3x) / (sl.p3x - sl.p2x) * (sl.p3y - sl.p2y)

/-- The prepended row `[P0_new, P0_new + vec/4, P3_new - vec/4, P3_new]` with
`P3_new` the original start anchor. -/
def extendRowLeft (s0 : Seg) (xlocation tolerance : ℚ) (mode : ExtendMode) : Seg :=
  ⟨xlocation, extendNewYLeft s0 xlocation tolerance mode,
   xlocation + 0.25 * (s0.p0x - xlocation),
   extendNewYLeft s0 xlocation tolerance mode
     + 0.25 * (s0.p0y - extendNewYLeft s0 xlocation tolerance mode),
   s0.p0x - 0.25 * (s0.p0x - xlocation),
   s0.p0y - 0.25 * (s0.p0y - extendNewYLeft s0 xlocation tolerance mode),
   s0.p0x, s0.p0y⟩

/-- The appended row `[P0_new, P0_new + vec/4, P3_new - vec/4, P3_new]` with
`P0_new` the original end anchor. -/
def extendRowRight (sl : Seg) (xlocation tolerance : ℚ) (mode : ExtendMode) : Seg :=
  ⟨sl.p3x, sl.p3y,
   sl.p3x + 0.25 * (xlocation - sl.p3x),
   sl.p3y + 0.25 * (extendNewYRight sl xlocation tolerance mode - sl.p3y),
   xlocation - 0.25 * (xlocation - sl.p3x),
   extendNewYRight sl xlocation tolerance mode
     - 0.25 * (extendNewYRight sl xlocation tolerance mode - sl.p3y),
   xlocation, extendNewYRight sl xlocation tolerance mode⟩

/-- `extend_bezsegs(segments, xlocation, mode, tolerance)`: return the input
unchanged when `xlocation` is inside the curve's x-range (within `tolerance`),
otherwise prepend (left of the range) or append (right of the range) one
segment reaching `xlocation`. -/
def extend_bezsegs (segs : List Seg) (xlocation : ℚ) (mode : ExtendMode) (tolerance : ℚ) :
    List Seg :=
  match segs with
  | [] => []
  | s0 :: rest =>
    if s0.p0x - tolerance ≤ xlocation ∧ xlocation ≤ (rest.getLastD s0).p3x + tolerance then
      s0 :: rest
    else if xlocation < s0.p0x then
      extendRowLeft s0 xlocation tolerance mode :: s0 :: rest
    else if (rest.getLastD s0).p3x < xlocation then
      (s0 :: rest) ++ [extendRowRight (rest.getLastD s0) xlocation tolerance mode]
    else
      s0 :: rest

/-- C10: for a non-empty segments array, `extend_bezsegs` returns the input
unchanged when `xlocation` lies within `[min_x - tolerance, max_x + tolerance]`;
otherwise it keeps all original rows and prepends (when `xlocation < min_x`)
or appends (when `xlocation > max_x`) exactly one new row whose outer anchor
x-coordinate equals `xlocation`. -/
theorem extend_bezsegs_frame (s0 : Seg) (rest : List Seg) (xlocation tolerance : ℚ)
    (mode : ExtendMode) (htol : 0 ≤ tolerance) :
    (s0.p0x - tolerance ≤ xlocation ∧ xlocation ≤ (rest.getLastD s0).p3x + tolerance →
      extend_bezsegs (s0 :: rest) xlocation mode tolerance = s0 :: rest) ∧
    (¬ (s0.p0x - tolerance ≤ xlocation ∧ xlocation ≤ (rest.getLastD s0).p3x + tolerance) →
      (xlocation < s0.p0x →
        extend_bezsegs (s0 :: rest) xlocation mode tolerance
          = extendRowLeft s0 xlocation tolerance mode :: s0 :: rest ∧
        (extendRowLeft s0 xlocation tolerance mode).p0x = xlocation) ∧
      (¬ xlocation < s0.p0x →
        (rest.getLastD s0).p3x < xlocation ∧
        extend_bezsegs (s0 :: rest) xlocation mode tolerance
          = (s0 :: rest) ++ [extendRowRight (rest.getLastD s0) xlocation tolerance mode] ∧
        (extendRowRight (rest.getLastD s0) xlocation tolerance mode).p3x = xlocation)) := by
  constructor
  · intro hin
    simp only [extend_bezsegs]
    rw [if_pos hin]
  · intro hout
    constructor
    · intro hlt
      constructor
      · simp only [extend_bezsegs]
        rw [if_neg hout, if_pos hlt]
      · rfl
    · intro hge
      have hgt : (rest.getLastD s0).p3x < xlocation := by
        rcases not_and_or.mp hout with h | h
        · exfalso
          apply hge
          push_neg at h
          linarith
        · push_neg at h
          linarith
      refine ⟨hgt, ?_, rfl⟩
      simp only [extend_bezsegs]
      rw [if_neg hout, if_neg hge, if_pos hgt]

theorem extend_bezsegs_frame_witness :
    (extend_bezsegs [⟨0, 0, 1, 1, 2, 2, 3, 3⟩] ((1:ℚ)/2) .HANDLE (1e-6)
        = [⟨0, 0, 1, 1, 2, 2, 3, 3⟩]) ∧
    (extend_bezsegs [⟨0, 0, 1, 1, 2, 2, 3, 3⟩] (-1) .HANDLE (1e-6)
        = extendRowLeft ⟨0, 0, 1, 1, 2, 2, 3, 3⟩ (-1) (1e-6) .HANDLE
            :: [⟨0, 0, 1, 1, 2, 2, 3, 3⟩] ∧
      (extendRowLeft ⟨0, 0, 1, 1, 2, 2, 3, 3⟩ (-1) (1e-6) .HANDLE).p0x = -1) ∧
    (extend_bezsegs [⟨0, 0, 1, 1, 2, 2, 3, 3⟩] 5 .HANDLE (1e-6)
        = [⟨0, 0, 1, 1, 2, 2, 3, 3⟩]
            ++ [extendRowRight ⟨0, 0, 1, 1, 2, 2, 3, 3⟩ 5 (1e-6) .HANDLE] ∧
      (extendRowRight ⟨0, 0, 1, 1, 2, 2, 3, 3⟩ 5 (1e-6) .HANDLE).p3x = 5) :=
  ⟨(extend_bezsegs_frame ⟨0, 0, 1, 1, 2, 2, 3, 3⟩ [] ((1:ℚ)/2) (1e-6) .HANDLE
      (by norm_num)).1 (by norm_num),
   ((extend_bezsegs_frame ⟨0, 0, 1, 1, 2, 2, 3, 3⟩ [] (-1) (1e-6) .HANDLE
      (by norm_num)).2 (by norm_num)).1 (by norm_num),
   (((extend_bezsegs_frame ⟨0, 0, 1, 1, 2, 2, 3, 3⟩ [] 5 (1e-6) .HANDLE
      (by norm_num)).2 (by norm_num)).2 (by norm_num)).2⟩

/-! ### `sample_bezsegs_with_t` and `cut_bezsegs` -/

/-- `sample_bezsegs_with_t(segments, sampling_rate)`: the per-segment point
lists and the (identical) per-segment t-value lists. -/
def sample_bezsegs_with_t (segments : List Seg) (sampling_rate : ℤ) :
    Except String (List (List (ℚ × ℚ)) × List (List ℚ)) :=
  if segments = [] then .ok ([], [])
  else if sampling_rate < 1 then .error "sampling_rate must be at least 1"
  else .ok (segments.map (fun s => (linspace01 sampling_rate.toNat).map (bezPt s)),
            segments.map (fun _ => linspace01 sampling_rate.toNat))

/-- `np.argmin` accumulator: strict comparison keeps the first minimum. -/
def argminAux (cur bestIdx : ℕ) (bestVal : ℚ) : List ℚ → ℕ
  | [] => bestIdx
  | x :: rest =>
    if x < bestVal then argminAux (cur + 1) cur x rest
    else argminAux (cur + 1) bestIdx bestVal rest

/-- `np.argmin`: index of the first minimum of a list. -/
def argmin : List ℚ → ℕ
  | [] => 0
  | x :: rest => argminAux 1 0 x rest

/-- The estimated subdivision parameter of `cut_bezsegs` for one segment: the
t-value of the sampled point whose x-coordinate is nearest `xlocation`. -/
def cutEstT (s : Seg) (xlocation : ℚ) (rate : ℕ) : ℚ :=
  (linspace01 rate).getD
    (argmin (((linspace01 rate).map (bezPt s)).map (fun p => |p.1 - xlocation|))) 0

/-- Step 3 of `cut_bezsegs` for one segment: the `t_map` entry and the
subdivision mark.  A segment is marked only when `xlocation` lies strictly
between its anchor x-coordinates and the estimated `t` is not too close to the
ends. -/
def cutMark (s : Seg) (xlocation : ℚ) (rate : ℕ) (tolerance : ℚ) : ℚ × Bool :=
  if (s.p0x < xlocation ∧ xlocation < s.p3x) ∨ (s.p3x < xlocation ∧ xlocation < s.p0x) then
    if ((linspace01 rate).map (bezPt s) = []) ∨ (linspace01 rate = []) then (0, false)
    else if tolerance < cutEstT s xlocation rate ∧ cutEstT s xlocation rate < 1 - tolerance then
      (cutEstT s xlocation rate, true)
    else (0, false)
  else (0, false)

/-- Step 5 of `cut_bezsegs`: walk the subdivided array with the subdivision
mask and snap the x-coordinate of each new shared anchor to `xlocation`
exactly. -/
def fixAnchors (xlocation : ℚ) : List Bool → List Seg → List Seg
  | true :: mrest, c1 :: c2 :: rest =>
    { c1 with p3x := xlocation } :: { c2 with p0x := xlocation }
      :: fixAnchors xlocation mrest rest
  | false :: mrest, s :: rest => s :: fixAnchors xlocation mrest rest
  | _, out => out

/-- `cut_bezsegs(segments, xlocation, sampling_rate, tolerance)`: estimate a
split parameter per segment from the samples, batch-subdivide, then snap the
new anchors to `xlocation`.  (The per-segment samples and t-values are exactly
the rows produced by `sample_bezsegs_with_t`.) -/
def cut_bezsegs (segs : List Seg) (xlocation : ℚ) (sampling_rate : ℤ) (tolerance : ℚ) :
    Except String (List Seg) :=
  if segs = [] then .ok []
  else if sampling_rate < 1 then .error "sampling_rate must be at least 1"
  else
    .ok (match casteljau_subdiv_bezsegs segs
        (segs.map (fun s => (cutMark s xlocation sampling_rate.toNat tolerance).1))
        tolerance with
      | .error _ => segs
      | .ok subdivided =>
        fixAnchors xlocation
          (segs.map (fun s => (cutMark s xlocation sampling_rate.toNat tolerance).2))
          subdivided)

/-- Final output rows contributed by one segment of `cut_bezsegs`. -/
def cutPiece (s : Seg) (xlocation : ℚ) (rate : ℕ) (tolerance : ℚ) : List Seg :=
  if (cutMark s xlocation rate tolerance).2 then
    [{ casteljauChild1 s (cutMark s xlocation rate tolerance).1 with p3x := xlocation },
     { casteljauChild2 s (cutMark s xlocation rate tolerance).1 with p0x := xlocation }]
  else [s]

theorem cutMark_true {s : Seg} {x : ℚ} {rate : ℕ} {tol : ℚ}
    (h : (cutMark s x rate tol).2 = true) :
    (cutMark s x rate tol).1 = cutEstT s x rate ∧
      tol < cutEstT s x rate ∧ cutEstT s x rate < 1 - tol := by
  unfold cutMark at h ⊢
  split_ifs at h ⊢ with h1 h2 h3 <;> simp_all

theorem cutMark_false {s : Seg} {x : ℚ} {rate : ℕ} {tol : ℚ}
    (h : (cutMark s x rate tol).2 = false) : (cutMark s x rate tol).1 = 0 := by
  unfold cutMark at h ⊢
  split_ifs at h ⊢ with h1 h2 h3 <;> simp_all

theorem fixAnchors_cons_true (xloc : ℚ) (m : List Bool) (c1 c2 : Seg) (rest : List Seg) :
    fixAnchors xloc (true :: m) (c1 :: c2 :: rest)
      = { c1 with p3x := xloc } :: { c2 with p0x := xloc } :: fixAnchors xloc m rest := rfl

theorem fixAnchors_cons_false (xloc : ℚ) (m : List Bool) (s : Seg) (rest : List Seg) :
    fixAnchors xloc (false :: m) (s :: rest) = s :: fixAnchors xloc m rest := rfl

/-- The mask walk of `cut_bezsegs` over the batch-subdivided rows yields
exactly the per-segment pieces, concatenated. -/
theorem fixAnchors_pieces (xloc : ℚ) (rate : ℕ) (tol : ℚ) (htol : 0 < tol) :
    ∀ segs : List Seg,
      fixAnchors xloc (segs.map (fun s => (cutMark s xloc rate tol).2))
        ((segs.zip (segs.map (fun s => (cutMark s xloc rate tol).1))).flatMap
          (fun p => subdivPiece p.1 p.2 tol))
        = segs.flatMap (fun s => cutPiece s xloc rate tol) := by
  intro segs
  induction segs with
  | nil => rfl
  | cons s rest ih =>
    rw [List.map_cons, List.map_cons, List.zip_cons_cons, List.flatMap_cons, List.flatMap_cons]
    by_cases h : (cutMark s xloc rate tol).2 = true
    · obtain ⟨h1, h2, h3⟩ := cutMark_true h
      have hpiece : subdivPiece s (cutMark s xloc rate tol).1 tol
          = [casteljauChild1 s (cutMark s xloc rate tol).1,
             casteljauChild2 s (cutMark s xloc rate tol).1] := by
        unfold subdivPiece
        rw [h1, if_pos ⟨h2, h3⟩]
      have hcut : cutPiece s xloc rate tol
          = [{ casteljauChild1 s (cutMark s xloc rate tol).1 with p3x := xloc },
             { casteljauChild2 s (cutMark s xloc rate tol).1 with p0x := xloc }] := by
        unfold cutPiece
        rw [if_pos h]
      rw [hpiece, h, List.cons_append, List.cons_append, List.nil_append,
        fixAnchors_cons_true, hcut, ih]
      rfl
    · have hb : (cutMark s xloc rate tol).2 = false := by
        simpa using h
      have hpiece : subdivPiece s (cutMark s xloc rate tol).1 tol = [s] := by
        unfold subdivPiece
        rw [cutMark_false hb, if_neg]
        intro hcon
        linarith [hcon.1]
      have hcut : cutPiece s xloc rate tol = [s] := by
        unfold cutPiece
        rw [if_neg (by rw [hb]; exact Bool.false_ne_true)]
      rw [hpiece, hb, List.cons_append, List.nil_append, fixAnchors_cons_false, hcut, ih]
      rfl

theorem cutPieces_length (xloc : ℚ) (rate : ℕ) (tol : ℚ) : ∀ segs : List Seg,
    segs.length ≤ (segs.flatMap (fun s => cutPiece s xloc rate tol)).length ∧
    (segs.flatMap (fun s => cutPiece s xloc rate tol)).length ≤ 2 * segs.length := by
  intro segs
  induction segs with
  | nil => simp
  | cons s rest ih =>
    have hp : (cutPiece s xloc rate tol).length = 1 ∨ (cutPiece s xloc rate tol).length = 2 := by
      unfold cutPiece
      split
      · right
        rfl
      · left
        rfl
    simp only [List.flatMap_cons, List.length_append, List.length_cons]
    rcases hp with hp | hp <;> rw [hp] <;> omega

/-- C6: for a non-empty x-monotonic segments array and an `xlocation` that
lies strictly inside at least one segment with estimated split parameter in
`(tolerance, 1 - tolerance)`, `cut_bezsegs` (at its defaults, sampling rate 50
and tolerance `1e-6`) returns the concatenation of per-segment pieces with
`N <= M <= 2N` rows: every marked segment is replaced by two consecutive
children sharing a new anchor whose x-coordinate is exactly `xlocation`, and
every segment not containing `xlocation` is carried over unchanged. -/
theorem cut_bezsegs_correct (segs : List Seg) (xloc : ℚ) (hne : segs ≠ [])
    (hmono : is_bezsegs_monotonic segs 500 = true)
    (hhit : ∃ s ∈ segs,
      ((s.p0x < xloc ∧ xloc < s.p3x) ∨ (s.p3x < xloc ∧ xloc < s.p0x)) ∧
      1e-6 < cutEstT s xloc 50 ∧ cutEstT s xloc 50 < 1 - 1e-6) :
    cut_bezsegs segs xloc 50 1e-6
      = .ok (segs.flatMap (fun s => cutPiece s xloc 50 1e-6)) ∧
    segs.length ≤ (segs.flatMap (fun s => cutPiece s xloc 50 1e-6)).length ∧
    (segs.flatMap (fun s => cutPiece s xloc 50 1e-6)).length ≤ 2 * segs.length ∧
    (∀ s ∈ segs,
      ((cutMark s xloc 50 1e-6).2 = true →
        ∃ c1 c2, cutPiece s xloc 50 1e-6 = [c1, c2] ∧
          c1.p3x = xloc ∧ c2.p0x = xloc ∧ c1.p3y = c2.p0y ∧
          c1.p0x = s.p0x ∧ c1.p0y = s.p0y ∧ c2.p3x = s.p3x ∧ c2.p3y = s.p3y) ∧
      (¬ ((s.p0x < xloc ∧ xloc < s.p3x) ∨ (s.p3x < xloc ∧ xloc < s.p0x)) →
        cutPiece s xloc 50 1e-6 = [s])) := by
  refine ⟨?_, (cutPieces_length xloc 50 (1e-6) segs).1,
    (cutPieces_length xloc 50 (1e-6) segs).2, ?_⟩
  · unfold cut_bezsegs
    rw [if_neg hne, if_neg (by norm_num)]
    have hcast : casteljau_subdiv_bezsegs segs
        (segs.map (fun s => (cutMark s xloc (50:ℤ).toNat 1e-6).1)) 1e-6
        = .ok ((segs.zip (segs.map (fun s => (cutMark s xloc (50:ℤ).toNat 1e-6).1))).flatMap
            (fun p => subdivPiece p.1 p.2 1e-6)) := by
      unfold casteljau_subdiv_bezsegs
      rw [if_neg (by rw [List.length_map]; omega)]
    rw [hcast]
    rw [show (50:ℤ).toNat = 50 from rfl]
    show Except.ok (fixAnchors xloc (segs.map (fun s => (cutMark s xloc 50 1e-6).2))
        ((segs.zip (segs.map (fun s => (cutMark s xloc 50 1e-6).1))).flatMap
          (fun p => subdivPiece p.1 p.2 1e-6)))
      = _
    rw [fixAnchors_pieces xloc 50 (1e-6) (by norm_num) segs]
  · intro s hs
    constructor
    · intro hmark
      obtain ⟨h1, h2, h3⟩ := cutMark_true hmark
      refine ⟨{ casteljauChild1 s (cutMark s xloc 50 1e-6).1 with p3x := xloc },
        { casteljauChild2 s (cutMark s xloc 50 1e-6).1 with p0x := xloc }, ?_, ?_⟩
      · unfold cutPiece
        rw [if_pos hmark]
      · refine ⟨rfl, rfl, ?_, rfl, rfl, rfl, rfl⟩
        show (casteljauChild1 s (cutMark s xloc 50 1e-6).1).p3y
          = (casteljauChild2 s (cutMark s xloc 50 1e-6).1).p0y
        unfold casteljauChild1 casteljauChild2
        rfl
    · intro hnot
      have hb : (cutMark s xloc 50 1e-6).2 = false := by
        unfold cutMark
        rw [if_neg hnot]
      unfold cutPiece
      rw [if_neg (by rw [hb]; exact Bool.false_ne_true)]

set_option maxRecDepth 1000000 in
set_option maxHeartbeats 2000000 in
theorem cut_bezsegs_correct_witness :
    (([⟨0, 0, (1:ℚ)/3, (1:ℚ)/3, (2:ℚ)/3, (2:ℚ)/3, 1, 1⟩] : List Seg) ≠ []) ∧
    is_bezsegs_monotonic [⟨0, 0, (1:ℚ)/3, (1:ℚ)/3, (2:ℚ)/3, (2:ℚ)/3, 1, 1⟩] 500 = true ∧
    cut_bezsegs [⟨0, 0, (1:ℚ)/3, (1:ℚ)/3, (2:ℚ)/3, (2:ℚ)/3, 1, 1⟩] ((1:ℚ)/2) 50 1e-6
      = .ok (([⟨0, 0, (1:ℚ)/3, (1:ℚ)/3, (2:ℚ)/3, (2:ℚ)/3, 1, 1⟩] : List Seg).flatMap
          (fun s => cutPiece s ((1:ℚ)/2) 50 1e-6)) := by
  have hm : is_bezsegs_monotonic [⟨0, 0, (1:ℚ)/3, (1:ℚ)/3, (2:ℚ)/3, (2:ℚ)/3, 1, 1⟩] 500
      = true := by
    apply is_monotonic_of_chain (by norm_num)
    · intro s hs
      rw [List.mem_singleton] at hs
      subst hs
      exact ⟨by norm_num, by norm_num, by norm_num, by norm_num⟩
    · simp
  have hest : cutEstT ⟨0, 0, (1:ℚ)/3, (1:ℚ)/3, (2:ℚ)/3, (2:ℚ)/3, 1, 1⟩ ((1:ℚ)/2) 50
      = 1/2 := by decide
  refine ⟨by simp, hm, ?_⟩
  exact (cut_bezsegs_correct [⟨0, 0, (1:ℚ)/3, (1:ℚ)/3, (2:ℚ)/3, (2:ℚ)/3, 1, 1⟩] ((1:ℚ)/2)
    (by simp) hm
    ⟨⟨0, 0, (1:ℚ)/3, (1:ℚ)/3, (2:ℚ)/3, (2:ℚ)/3, 1, 1⟩, List.mem_singleton_self _,
      by norm_num, by rw [hest]; norm_num, by rw [hest]; norm_num⟩).1

/-! ### `match_bounds` and `match_bezsegs` -/

/-- Overall start-anchor x of a segments array. -/
def headP0x (l : List Seg) : ℚ :=
  match l with
  | [] => 0
  | s :: _ => s.p0x

/-- Overall end-anchor x of a segments array. -/
def lastP3x (l : List Seg) : ℚ :=
  match l with
  | [] => 0
  | s :: rest => (rest.getLastD s).p3x

/-- Scale factor of `match_bounds` for one axis (both fallback branches of the
code give 1). -/
def mbScale (spanA spanB tolerance : ℚ) : ℚ :=
  if spanB > tolerance then spanA / spanB else 1

/-- One coordinate of the `match_bounds` transform: translate the origin to 0,
optionally rescale by `|scale|`, then translate to the target. -/
def mbCoord (origin target scale : ℚ) (rescale : Bool) (v : ℚ) : ℚ :=
  if rescale then (v - origin) * |scale| + target else v - origin + target

/-- The `match_bounds` transform applied to all four points of one segment. -/
def mbSeg (ox oy tx ty sx sy : ℚ) (rx ry : Bool) (s : Seg) : Seg :=
  ⟨mbCoord ox tx sx rx s.p0x, mbCoord oy ty sy ry s.p0y,
   mbCoord ox tx sx rx s.p1x, mbCoord oy ty sy ry s.p1y,
   mbCoord ox tx sx rx s.p2x, mbCoord oy ty sy ry s.p2y,
   mbCoord ox tx sx rx s.p3x, mbCoord oy ty sy ry s.p3y⟩

/-- `match_bounds(segsMod, segsRef, rescale_x, rescale_y, tolerance)`:
translate (and optionally rescale) `segsMod` so its overall start and end
points land on those of `segsRef`; `None` for empty inputs. -/
def match_bounds (segsMod segsRef : List Seg) (rescale_x rescale_y : Bool)
    (tolerance : ℚ) : Option (List Seg) :=
  match segsMod, segsRef with
  | [], _ => none
  | _ :: _, [] => none
  | m0 :: mrest, r0 :: rrest =>
    some ((m0 :: mrest).map (mbSeg m0.p0x m0.p0y r0.p0x r0.p0y
      (mbScale |(rrest.getLastD r0).p3x - r0.p0x| |(mrest.getLastD m0).p3x - m0.p0x| tolerance)
      (mbScale |(rrest.getLastD r0).p3y - r0.p0y| |(mrest.getLastD m0).p3y - m0.p0y| tolerance)
      rescale_x rescale_y))

/-- Step 2 of `match_bezsegs` for one curve: conditionally extend the start to
the global minimum and the end to the global maximum (the conditions use the
curve's original bounds, as in the code). -/
def matchExtend (segs : List Seg) (minx maxx gmin gmax tolerance : ℚ) : List Seg :=
  if maxx < gmax - tolerance then
    extend_bezsegs
      (if minx > gmin + tolerance then extend_bezsegs segs gmin .HANDLE tolerance else segs)
      gmax .HANDLE tolerance
  else
    if minx > gmin + tolerance then extend_bezsegs segs gmin .HANDLE tolerance else segs

/-- Step 3 of `match_bezsegs`: all knot x-coordinates of a curve. -/
def knotsOf (segs : List Seg) : List ℚ :=
  match segs with
  | [] => []
  | s0 :: rest => s0.p0x :: (s0 :: rest).map (fun s => s.p3x)

/-- Steps 4-5 of `match_bezsegs`: subdivide both curves at every collected
knot, skipping knots at the global boundaries; any cut error returns the pair
as it stands (the code's `except` branch). -/
def matchLoop (cut_precision : ℤ) (tolerance gmin gmax : ℚ) :
    List ℚ → List Seg × List Seg → List Seg × List Seg
  | [], p => p
  | xk :: rest, (A, B) =>
    if |xk - gmin| < tolerance ∨ |xk - gmax| < tolerance then
      matchLoop cut_precision tolerance gmin gmax rest (A, B)
    else
      match cut_bezsegs A xk cut_precision tolerance with
      | .error _ => (A, B)
      | .ok A2 =>
        match cut_bezsegs B xk cut_precision tolerance with
        | .error _ => (A2, B)
        | .ok B2 => matchLoop cut_precision tolerance gmin gmax rest (A2, B2)

/-- Final stage of `match_bezsegs`: run the knot loop, then fail unless both
curves ended up with the same number of segments. -/
def matchCore (A B : List Seg) (gmin gmax : ℚ) (cut_precision : ℤ) (tolerance : ℚ) :
    Option (List Seg × List Seg) :=
  if (matchLoop cut_precision tolerance gmin gmax (knotsOf A ++ knotsOf B) (A, B)).1.length
      ≠ (matchLoop cut_precision tolerance gmin gmax (knotsOf A ++ knotsOf B) (A, B)).2.length
  then none
  else some (matchLoop cut_precision tolerance gmin gmax (knotsOf A ++ knotsOf B) (A, B))

/-- `match_bezsegs(segsA, segsB, cut_precision, tolerance)`: `None` on empty
input; otherwise extend both curves over the common x-range, subdivide each at
the other's knots, and return the pair unless the segment counts ended up
different (the code's documented failure mode, which also returns `None`). -/
def match_bezsegs (segsA segsB : List Seg) (cut_precision : ℤ) (tolerance : ℚ) :
    Option (List Seg × List Seg) :=
  match segsA, segsB with
  | [], _ => none
  | _ :: _, [] => none
  | a0 :: arest, b0 :: brest =>
    matchCore
      (matchExtend (a0 :: arest) (headP0x (a0 :: arest)) (lastP3x (a0 :: arest))
        (min (headP0x (a0 :: arest)) (headP0x (b0 :: brest)))
        (max (lastP3x (a0 :: arest)) (lastP3x (b0 :: brest))) tolerance)
      (matchExtend (b0 :: brest) (headP0x (b0 :: brest)) (lastP3x (b0 :: brest))
        (min (headP0x (a0 :: arest)) (headP0x (b0 :: brest)))
        (max (lastP3x (a0 :: arest)) (lastP3x (b0 :: brest))) tolerance)
      (min (headP0x (a0 :: arest)) (headP0x (b0 :: brest)))
      (max (lastP3x (a0 :: arest)) (lastP3x (b0 :: brest)))
      cut_precision tolerance

/-! ### Endpoint preservation through extension and cutting -/

theorem headP0x_append {l1 : List Seg} (l2 : List Seg) (h : l1 ≠ []) :
    headP0x (l1 ++ l2) = headP0x l1 := by
  cases l1 with
  | nil => exact absurd rfl h
  | cons s rest => rfl

theorem lastP3x_append (l1 : List Seg) {l2 : List Seg} (h : l2 ≠ []) :
    lastP3x (l1 ++ l2) = lastP3x l2 := by
  cases l1 with
  | nil => rw [List.nil_append]
  | cons s rest =>
    cases l2 with
    | nil => exact absurd rfl h
    | cons s2 rest2 =>
      show ((rest ++ s2 :: rest2).getLastD s).p3x = ((rest2.getLastD s2)).p3x
      rw [List.getLastD_eq_getLast?, List.getLastD_eq_getLast?, List.getLast?_append_of_ne_nil,
        List.getLast?_cons]
      · rfl
      · simp

theorem cutPiece_ne_nil (s : Seg) (x : ℚ) (rate : ℕ) (tol : ℚ) :
    cutPiece s x rate tol ≠ [] := by
  unfold cutPiece
  split <;> simp

theorem flatMap_cutPiece_ne_nil {segs : List Seg} (h : segs ≠ []) (x : ℚ) (rate : ℕ)
    (tol : ℚ) : segs.flatMap (fun s => cutPiece s x rate tol) ≠ [] := by
  cases segs with
  | nil => exact absurd rfl h
  | cons s rest =>
    rw [List.flatMap_cons]
    intro hcon
    exact cutPiece_ne_nil s x rate tol (List.append_eq_nil.mp hcon).1

theorem headP0x_cutPiece (s : Seg) (x : ℚ) (rate : ℕ) (tol : ℚ) :
    headP0x (cutPiece s x rate tol) = s.p0x := by
  unfold cutPiece
  split <;> rfl

theorem lastP3x_cutPiece (s : Seg) (x : ℚ) (rate : ℕ) (tol : ℚ) :
    lastP3x (cutPiece s x rate tol) = s.p3x := by
  unfold cutPiece
  split <;> rfl

theorem headP0x_flatMap {segs : List Seg} (h : segs ≠ []) (x : ℚ) (rate : ℕ) (tol : ℚ) :
    headP0x (segs.flatMap (fun s => cutPiece s x rate tol)) = headP0x segs := by
  cases segs with
  | nil => exact absurd rfl h
  | cons s rest =>
    rw [List.flatMap_cons, headP0x_append _ (cutPiece_ne_nil s x rate tol)]
    exact headP0x_cutPiece s x rate tol

theorem lastP3x_flatMap {segs : List Seg} (h : segs ≠ []) (x : ℚ) (rate : ℕ) (tol : ℚ) :
    lastP3x (segs.flatMap (fun s => cutPiece s x rate tol)) = lastP3x segs := by
  induction segs with
  | nil => exact absurd rfl h
  | cons s rest ih =>
    cases hrest : rest with
    | nil =>
      subst hrest
      rw [List.flatMap_cons, List.flatMap_nil, List.append_nil]
      exact lastP3x_cutPiece s x rate tol
    | cons s2 rest2 =>
      rw [List.flatMap_cons]
      have hne2 : (s2 :: rest2).flatMap (fun s => cutPiece s x rate tol) ≠ [] :=
        flatMap_cutPiece_ne_nil (by simp) x rate tol
      rw [← hrest] at hne2 ⊢
      rw [lastP3x_append _ hne2, ih (by rw [hrest]; simp)]
      rw [hrest]
      show (rest2.getLastD s2).p3x = ((s2 :: rest2).getLastD s).p3x
      rw [List.getLastD_cons]

/-- General success case of `cut_bezsegs`: for a non-empty input, a valid
sampling rate and a positive tolerance the result is the concatenation of the
per-segment pieces. -/
theorem cut_bezsegs_ok {segs : List Seg} (hne : segs ≠ []) {rate : ℤ} (hrate : ¬ rate < 1)
    {tol : ℚ} (htol : 0 < tol) (x : ℚ) :
    cut_bezsegs segs x rate tol
      = .ok (segs.flatMap (fun s => cutPiece s x rate.toNat tol)) := by
  unfold cut_bezsegs
  rw [if_neg hne, if_neg hrate]
  have hcast : casteljau_subdiv_bezsegs segs
      (segs.map (fun s => (cutMark s x rate.toNat tol).1)) tol
      = .ok ((segs.zip (segs.map (fun s => (cutMark s x rate.toNat tol).1))).flatMap
          (fun p => subdivPiece p.1 p.2 tol)) := by
    unfold casteljau_subdiv_bezsegs
    rw [if_neg (by rw [List.length_map]; omega)]
  rw [hcast]
  show Except.ok (fixAnchors x (segs.map (fun s => (cutMark s x rate.toNat tol).2))
      ((segs.zip (segs.map (fun s => (cutMark s x rate.toNat tol).1))).flatMap
        (fun p => subdivPiece p.1 p.2 tol)))
    = _
  rw [fixAnchors_pieces x rate.toNat tol htol segs]

theorem chain_head_le_last : ∀ (l : List ℚ), l.Chain' (· ≤ ·) →
    ∀ x ∈ l.head?, ∀ y ∈ l.getLast?, x ≤ y
  | [] => by simp
  | [a] => by
    intro _ x hx y hy
    simp only [List.head?_cons, List.getLast?_singleton, Option.mem_def,
      Option.some.injEq] at hx hy
    rw [← hx, ← hy]
  | a :: b :: rest => by
    intro hchain x hx y hy
    rw [List.head?_cons, Option.mem_def, Option.some.injEq] at hx
    rw [List.getLast?_cons_cons] at hy
    have hab := (List.chain'_cons.mp hchain).1
    have hbl := chain_head_le_last (b :: rest) (List.chain'_cons.mp hchain).2 b (by simp) y hy
    rw [← hx]
    exact le_trans hab hbl

theorem grid_xs_head (s0 : Seg) (rest : List Seg) (rate : ℕ) :
    ((sampleGrid (s0 :: rest) rate).map Prod.fst).head? = some s0.p0x := by
  have hgrid : sampleGrid (s0 :: rest) rate
      = (linspace01 rate).map (bezPt s0) ++ sampleGrid rest rate := rfl
  rw [hgrid, List.map_append]
  have hne : (((linspace01 rate).map (bezPt s0)).map Prod.fst) ≠ [] := by
    simp [linspace01]
  rw [List.head?_append_of_ne_nil _ hne, List.map_map]
  have hfst : (Prod.fst ∘ bezPt s0) = bezX s0 := rfl
  rw [hfst]
  unfold linspace01
  rw [List.map_map, List.range_succ_eq_map]
  simp only [List.map_cons, List.head?_cons, Option.some.injEq, Function.comp]
  rw [show ((0:ℕ):ℚ) = 0 from rfl, zero_div, bezX_zero]

theorem grid_xs_last {rate : ℕ} (hrate : 1 ≤ rate) : ∀ (s0 : Seg) (rest : List Seg),
    ((sampleGrid (s0 :: rest) rate).map Prod.fst).getLast? = some (lastP3x (s0 :: rest)) := by
  intro s0 rest
  induction rest generalizing s0 with
  | nil =>
    have hgrid : sampleGrid [s0] rate = (linspace01 rate).map (bezPt s0) ++ [] := rfl
    rw [hgrid, List.append_nil, List.map_map]
    have hfst : (Prod.fst ∘ bezPt s0) = bezX s0 := rfl
    rw [hfst]
    unfold linspace01
    have hrq : (rate : ℚ) ≠ 0 := by
      have : (0:ℚ) < (rate : ℚ) := by exact_mod_cast hrate
      exact ne_of_gt this
    rw [List.map_map, List.range_succ, List.map_append, List.map_cons, List.map_nil,
      List.getLast?_concat]
    simp only [Function.comp, Option.some.injEq]
    rw [div_self hrq, bezX_one]
    rfl
  | cons s1 rest2 ih =>
    have hgrid : sampleGrid (s0 :: s1 :: rest2) rate
        = (linspace01 rate).map (bezPt s0) ++ sampleGrid (s1 :: rest2) rate := rfl
    rw [hgrid, List.map_append]
    have hne : (sampleGrid (s1 :: rest2) rate).map Prod.fst ≠ [] := by
      intro hcon
      have := congrArg List.length hcon
      rw [List.length_map, sampleGrid_length] at this
      simp at this
    rw [List.getLast?_append_of_ne_nil _ hne, ih s1]
    show _ = some (((s1 :: rest2).getLastD s0).p3x)
    rw [List.getLastD_cons]
    rfl

set_option maxRecDepth 10000 in
/-- A curve that passes `is_bezsegs_monotonic` has its overall start anchor to
the left of its overall end anchor. -/
theorem mono_head_le_last {segs : List Seg} (hne : segs ≠ [])
    (hmono : is_bezsegs_monotonic segs 500 = true) : headP0x segs ≤ lastP3x segs := by
  cases segs with
  | nil => exact absurd rfl hne
  | cons s0 rest =>
    unfold is_bezsegs_monotonic at hmono
    rw [sample_bezsegs_ok (by norm_num) (by simp)] at hmono
    have hchain := (pairsLE_iff_chain _).mp hmono
    apply chain_head_le_last _ hchain
    · rw [grid_xs_head]
      rfl
    · rw [grid_xs_last (by norm_num)]
      rfl

theorem extend_left_effect {segs : List Seg} (hne : segs ≠ []) {xloc tol : ℚ}
    (htol : 0 ≤ tol) (hlt : xloc < headP0x segs - tol) :
    headP0x (extend_bezsegs segs xloc .HANDLE tol) = xloc ∧
    lastP3x (extend_bezsegs segs xloc .HANDLE tol) = lastP3x segs ∧
    extend_bezsegs segs xloc .HANDLE tol ≠ [] := by
  cases segs with
  | nil => exact absurd rfl hne
  | cons s0 rest =>
    have hhead : headP0x (s0 :: rest) = s0.p0x := rfl
    rw [hhead] at hlt
    have hout : ¬ (s0.p0x - tol ≤ xloc ∧ xloc ≤ (rest.getLastD s0).p3x + tol) := by
      intro hcon
      linarith [hcon.1]
    have hx : xloc < s0.p0x := by linarith
    have heq : extend_bezsegs (s0 :: rest) xloc .HANDLE tol
        = extendRowLeft s0 xloc tol .HANDLE :: s0 :: rest := by
      simp only [extend_bezsegs]
      rw [if_neg hout, if_pos hx]
    rw [heq]
    refine ⟨rfl, ?_, by simp⟩
    show (((s0 :: rest).getLastD (extendRowLeft s0 xloc tol .HANDLE))).p3x
      = ((rest.getLastD s0)).p3x
    rw [List.getLastD_cons]

theorem extend_right_effect {segs : List Seg} (hne : segs ≠ []) {xloc tol : ℚ}
    (htol : 0 ≤ tol) (hgt : lastP3x segs + tol < xloc) (hml : headP0x segs ≤ lastP3x segs) :
    headP0x (extend_bezsegs segs xloc .HANDLE tol) = headP0x segs ∧
    lastP3x (extend_bezsegs segs xloc .HANDLE tol) = xloc ∧
    extend_bezsegs segs xloc .HANDLE tol ≠ [] := by
  cases segs with
  | nil => exact absurd rfl hne
  | cons s0 rest =>
    have hlast : lastP3x (s0 :: rest) = (rest.getLastD s0).p3x := rfl
    rw [hlast] at hgt hml
    have hhead : headP0x (s0 :: rest) = s0.p0x := rfl
    rw [hhead] at hml
    have hout : ¬ (s0.p0x - tol ≤ xloc ∧ xloc ≤ (rest.getLastD s0).p3x + tol) := by
      intro hcon
      linarith [hcon.2]
    have hnx : ¬ xloc < s0.p0x := by
      push_neg
      linarith
    have hx : (rest.getLastD s0).p3x < xloc := by linarith
    have heq : extend_bezsegs (s0 :: rest) xloc .HANDLE tol
        = (s0 :: rest) ++ [extendRowRight (rest.getLastD s0) xloc tol .HANDLE] := by
      simp only [extend_bezsegs]
      rw [if_neg hout, if_neg hnx, if_pos hx]
    rw [heq]
    refine ⟨headP0x_append _ (by simp), ?_, by simp⟩
    rw [lastP3x_append _ (by simp)]
    rfl

/-- Effect of the conditional double extension of `match_bezsegs` on the
curve's overall bounds: both ends land within `tolerance` of the global
range. -/
theorem matchExtend_good {segs : List Seg} (hne : segs ≠ []) {gmin gmax tol : ℚ}
    (htol : 0 ≤ tol) (hg1 : gmin ≤ headP0x segs) (hg2 : lastP3x segs ≤ gmax)
    (hml : headP0x segs ≤ lastP3x segs) :
    matchExtend segs (headP0x segs) (lastP3x segs) gmin gmax tol ≠ [] ∧
    |headP0x (matchExtend segs (headP0x segs) (lastP3x segs) gmin gmax tol) - gmin| ≤ tol ∧
    |lastP3x (matchExtend segs (headP0x segs) (lastP3x segs) gmin gmax tol) - gmax| ≤ tol := by
  unfold matchExtend
  by_cases hL : headP0x segs > gmin + tol
  · have hLeff := extend_left_effect hne htol (by linarith : gmin < headP0x segs - tol)
    by_cases hR : lastP3x segs < gmax - tol
    · rw [if_pos hR, if_pos hL]
      have hReff := @extend_right_effect _ hLeff.2.2 gmax tol htol
        (by rw [hLeff.2.1]; linarith) (by rw [hLeff.1, hLeff.2.1]; linarith)
      rw [hReff.1, hReff.2.1, hLeff.1]
      refine ⟨hReff.2.2, by simp [htol], by simp [htol]⟩
    · rw [if_neg hR, if_pos hL]
      rw [hLeff.1, hLeff.2.1]
      push_neg at hR
      refine ⟨hLeff.2.2, by simp [htol], ?_⟩
      rw [abs_le]
      constructor <;> linarith
  · by_cases hR : lastP3x segs < gmax - tol
    · rw [if_pos hR, if_neg hL]
      have hReff := @extend_right_effect _ hne gmax tol htol (by linarith) hml
      rw [hReff.1, hReff.2.1]
      push_neg at hL
      refine ⟨hReff.2.2, ?_, by simp [htol]⟩
      rw [abs_le]
      constructor <;> linarith
    · rw [if_neg hR, if_neg hL]
      push_neg at hL hR
      refine ⟨hne, ?_, ?_⟩ <;> rw [abs_le] <;> constructor <;> linarith

/-- The knot-subdivision loop of `match_bezsegs` never empties a curve and
never moves its overall start or end anchors. -/
theorem matchLoop_invariant {cut_precision : ℤ} (hprec : ¬ cut_precision < 1)
    {tol : ℚ} (htol : 0 < tol) (gmin gmax : ℚ) :
    ∀ (knots : List ℚ) (A B : List Seg), A ≠ [] → B ≠ [] →
      (matchLoop cut_precision tol gmin gmax knots (A, B)).1 ≠ [] ∧
      (matchLoop cut_precision tol gmin gmax knots (A, B)).2 ≠ [] ∧
      headP0x (matchLoop cut_precision tol gmin gmax knots (A, B)).1 = headP0x A ∧
      lastP3x (matchLoop cut_precision tol gmin gmax knots (A, B)).1 = lastP3x A ∧
      headP0x (matchLoop cut_precision tol gmin gmax knots (A, B)).2 = headP0x B ∧
      lastP3x (matchLoop cut_precision tol gmin gmax knots (A, B)).2 = lastP3x B := by
  intro knots
  induction knots with
  | nil =>
    intro A B hA hB
    exact ⟨hA, hB, rfl, rfl, rfl, rfl⟩
  | cons xk rest ih =>
    intro A B hA hB
    by_cases hskip : |xk - gmin| < tol ∨ |xk - gmax| < tol
    · have heq : matchLoop cut_precision tol gmin gmax (xk :: rest) (A, B)
          = matchLoop cut_precision tol gmin gmax rest (A, B) := by
        simp only [matchLoop]
        rw [if_pos hskip]
      rw [heq]
      exact ih A B hA hB
    · have heq : matchLoop cut_precision tol gmin gmax (xk :: rest) (A, B)
          = matchLoop cut_precision tol gmin gmax rest
              (A.flatMap (fun s => cutPiece s xk cut_precision.toNat tol),
               B.flatMap (fun s => cutPiece s xk cut_precision.toNat tol)) := by
        simp only [matchLoop]
        rw [if_neg hskip, cut_bezsegs_ok hA hprec htol xk, cut_bezsegs_ok hB hprec htol xk]
      rw [heq]
      have hA2 := flatMap_cutPiece_ne_nil hA xk cut_precision.toNat tol
      have hB2 := flatMap_cutPiece_ne_nil hB xk cut_precision.toNat tol
      obtain ⟨i1, i2, i3, i4, i5, i6⟩ := ih _ _ hA2 hB2
      refine ⟨i1, i2, ?_, ?_, ?_, ?_⟩
      · rw [i3, headP0x_flatMap hA]
      · rw [i4, lastP3x_flatMap hA]
      · rw [i5, headP0x_flatMap hB]
      · rw [i6, lastP3x_flatMap hB]

set_option maxRecDepth 1000000 in
set_option maxHeartbeats 4000000 in
/-- C3 (counterexample): two non-empty x-monotonic curves for which
`match_bezsegs` returns `None` (a vertical curve needs an extension segment
that the other curve never receives a matching knot for), and a second pair on
which it succeeds but the returned second curve starts at `x = 5e-8`, not at
the common minimum `0`: the claimed unconditional pairing and exact common
span both fail. -/
theorem match_bezsegs_counterexample :
    is_bezsegs_monotonic [⟨0, 0, 0, 0, 0, 1, 0, 1⟩] 500 = true ∧
    is_bezsegs_monotonic [⟨0, 0, (1:ℚ)/4, (1:ℚ)/4, (3:ℚ)/4, (3:ℚ)/4, 1, 1⟩] 500 = true ∧
    match_bezsegs [⟨0, 0, 0, 0, 0, 1, 0, 1⟩]
      [⟨0, 0, (1:ℚ)/4, (1:ℚ)/4, (3:ℚ)/4, (3:ℚ)/4, 1, 1⟩] 50 (1e-6) = none ∧
    is_bezsegs_monotonic [⟨0, 0, (1:ℚ)/3, (1:ℚ)/3, (2:ℚ)/3, (2:ℚ)/3, 1, 1⟩] 500 = true ∧
    is_bezsegs_monotonic
      [⟨(1:ℚ)/20000000, 0, (1:ℚ)/3, (1:ℚ)/3, (2:ℚ)/3, (2:ℚ)/3, 1, 1⟩] 500 = true ∧
    match_bezsegs [⟨0, 0, (1:ℚ)/3, (1:ℚ)/3, (2:ℚ)/3, (2:ℚ)/3, 1, 1⟩]
      [⟨(1:ℚ)/20000000, 0, (1:ℚ)/3, (1:ℚ)/3, (2:ℚ)/3, (2:ℚ)/3, 1, 1⟩] 50 (1e-6)
      = some ([⟨0, 0, (1:ℚ)/3, (1:ℚ)/3, (2:ℚ)/3, (2:ℚ)/3, 1, 1⟩],
              [⟨(1:ℚ)/20000000, 0, (1:ℚ)/3, (1:ℚ)/3, (2:ℚ)/3, (2:ℚ)/3, 1, 1⟩]) ∧
    headP0x [⟨(1:ℚ)/20000000, 0, (1:ℚ)/3, (1:ℚ)/3, (2:ℚ)/3, (2:ℚ)/3, 1, 1⟩]
      ≠ min (headP0x [⟨0, 0, (1:ℚ)/3, (1:ℚ)/3, (2:ℚ)/3, (2:ℚ)/3, 1, 1⟩])
          (headP0x [⟨(1:ℚ)/20000000, 0, (1:ℚ)/3, (1:ℚ)/3, (2:ℚ)/3, (2:ℚ)/3, 1, 1⟩]) := by
  refine ⟨?_, ?_, ?_, ?_, ?_, ?_, ?_⟩
  · apply is_monotonic_of_chain (by norm_num)
    · intro s hs
      rw [List.mem_singleton] at hs
      subst hs
      exact ⟨by norm_num, by norm_num, by norm_num, by norm_num⟩
    · simp
  · apply is_monotonic_of_chain (by norm_num)
    · intro s hs
      rw [List.mem_singleton] at hs
      subst hs
      exact ⟨by norm_num, by norm_num, by norm_num, by norm_num⟩
    · simp
  · decide
  · apply is_monotonic_of_chain (by norm_num)
    · intro s hs
      rw [List.mem_singleton] at hs
      subst hs
      exact ⟨by norm_num, by norm_num, by norm_num, by norm_num⟩
    · simp
  · apply is_monotonic_of_chain (by norm_num)
    · intro s hs
      rw [List.mem_singleton] at hs
      subst hs
      exact ⟨by norm_num, by norm_num, by norm_num, by norm_num⟩
    · simp
  · decide
  · show ((1:ℚ)/20000000) ≠ min (0:ℚ) ((1:ℚ)/20000000)
    norm_num

/-- C3 (amended): for non-empty x-monotonic inputs, a valid cut precision and
a positive tolerance, `match_bezsegs` returns `None`, or a pair of non-empty
arrays with exactly the same number of segments whose overall start anchors
lie within `tolerance` of the common minimum x and whose overall end anchors
lie within `tolerance` of the common maximum x. -/
theorem match_bezsegs_matched_or_none (segsA segsB : List Seg) (cut_precision : ℤ)
    (tolerance : ℚ) (hprec : ¬ cut_precision < 1) (htol : 0 < tolerance)
    (hneA : segsA ≠ []) (hneB : segsB ≠ [])
    (hmonoA : is_bezsegs_monotonic segsA 500 = true)
    (hmonoB : is_bezsegs_monotonic segsB 500 = true) :
    match_bezsegs segsA segsB cut_precision tolerance = none ∨
    ∃ A2 B2, match_bezsegs segsA segsB cut_precision tolerance = some (A2, B2) ∧
      A2.length = B2.length ∧ A2 ≠ [] ∧ B2 ≠ [] ∧
      |headP0x A2 - min (headP0x segsA) (headP0x segsB)| ≤ tolerance ∧
      |lastP3x A2 - max (lastP3x segsA) (lastP3x segsB)| ≤ tolerance ∧
      |headP0x B2 - min (headP0x segsA) (headP0x segsB)| ≤ tolerance ∧
      |lastP3x B2 - max (lastP3x segsA) (lastP3x segsB)| ≤ tolerance := by
  cases segsA with
  | nil => exact absurd rfl hneA
  | cons a0 arest =>
  cases segsB with
  | nil => exact absurd rfl hneB
  | cons b0 brest =>
  have hmlA := mono_head_le_last hneA hmonoA
  have hmlB := mono_head_le_last hneB hmonoB
  have hEA := matchExtend_good hneA (le_of_lt htol)
    (min_le_left (headP0x (a0 :: arest)) (headP0x (b0 :: brest)))
    (le_max_left (lastP3x (a0 :: arest)) (lastP3x (b0 :: brest))) hmlA
  have hEB := matchExtend_good hneB (le_of_lt htol)
    (min_le_right (headP0x (a0 :: arest)) (headP0x (b0 :: brest)))
    (le_max_right (lastP3x (a0 :: arest)) (lastP3x (b0 :: brest))) hmlB
  have hmatch : match_bezsegs (a0 :: arest) (b0 :: brest) cut_precision tolerance
      = matchCore
        (matchExtend (a0 :: arest) (headP0x (a0 :: arest)) (lastP3x (a0 :: arest))
          (min (headP0x (a0 :: arest)) (headP0x (b0 :: brest)))
          (max (lastP3x (a0 :: arest)) (lastP3x (b0 :: brest))) tolerance)
        (matchExtend (b0 :: brest) (headP0x (b0 :: brest)) (lastP3x (b0 :: brest))
          (min (headP0x (a0 :: arest)) (headP0x (b0 :: brest)))
          (max (lastP3x (a0 :: arest)) (lastP3x (b0 :: brest))) tolerance)
        (min (headP0x (a0 :: arest)) (headP0x (b0 :: brest)))
        (max (lastP3x (a0 :: arest)) (lastP3x (b0 :: brest)))
        cut_precision tolerance := rfl
  rw [hmatch]
  unfold matchCore
  have hinv := matchLoop_invariant hprec htol
    (min (headP0x (a0 :: arest)) (headP0x (b0 :: brest)))
    (max (lastP3x (a0 :: arest)) (lastP3x (b0 :: brest)))
    (knotsOf (matchExtend (a0 :: arest) (headP0x (a0 :: arest)) (lastP3x (a0 :: arest))
          (min (headP0x (a0 :: arest)) (headP0x (b0 :: brest)))
          (max (lastP3x (a0 :: arest)) (lastP3x (b0 :: brest))) tolerance)
        ++ knotsOf (matchExtend (b0 :: brest) (headP0x (b0 :: brest)) (lastP3x (b0 :: brest))
          (min (headP0x (a0 :: arest)) (headP0x (b0 :: brest)))
          (max (lastP3x (a0 :: arest)) (lastP3x (b0 :: brest))) tolerance))
    _ _ hEA.1 hEB.1
  split
  · exact Or.inl rfl
  · right
    refine ⟨_, _, rfl, ?_, hinv.1, hinv.2.1, ?_, ?_, ?_, ?_⟩
    · omega
    · rw [hinv.2.2.1]
      exact hEA.2.1
    · rw [hinv.2.2.2.1]
      exact hEA.2.2
    · rw [hinv.2.2.2.2.1]
      exact hEB.2.1
    · rw [hinv.2.2.2.2.2]
      exact hEB.2.2

/-- The segment with equally spaced control points (its Bezier x-coordinate is
the identity) passes the monotonicity check. -/
theorem linearSegMono :
    is_bezsegs_monotonic [⟨0, 0, (1:ℚ)/3, (1:ℚ)/3, (2:ℚ)/3, (2:ℚ)/3, 1, 1⟩] 500 = true := by
  apply is_monotonic_of_chain (by norm_num)
  · intro s hs
    rw [List.mem_singleton] at hs
    subst hs
    exact ⟨by norm_num, by norm_num, by norm_num, by norm_num⟩
  · simp

theorem match_bezsegs_matched_or_none_witness :
    (¬ (50:ℤ) < 1) ∧ ((0:ℚ) < 1e-6) ∧
    (([(⟨0, 0, (1:ℚ)/3, (1:ℚ)/3, (2:ℚ)/3, (2:ℚ)/3, 1, 1⟩ : Seg)] : List Seg) ≠ []) ∧
    is_bezsegs_monotonic [⟨0, 0, (1:ℚ)/3, (1:ℚ)/3, (2:ℚ)/3, (2:ℚ)/3, 1, 1⟩] 500 = true ∧
    (match_bezsegs [⟨0, 0, (1:ℚ)/3, (1:ℚ)/3, (2:ℚ)/3, (2:ℚ)/3, 1, 1⟩]
        [⟨0, 0, (1:ℚ)/3, (1:ℚ)/3, (2:ℚ)/3, (2:ℚ)/3, 1, 1⟩] 50 (1e-6) = none ∨
      ∃ A2 B2, match_bezsegs [⟨0, 0, (1:ℚ)/3, (1:ℚ)/3, (2:ℚ)/3, (2:ℚ)/3, 1, 1⟩]
          [⟨0, 0, (1:ℚ)/3, (1:ℚ)/3, (2:ℚ)/3, (2:ℚ)/3, 1, 1⟩] 50 (1e-6) = some (A2, B2) ∧
        A2.length = B2.length ∧ A2 ≠ [] ∧ B2 ≠ [] ∧
        |headP0x A2 - min (headP0x [(⟨0, 0, (1:ℚ)/3, (1:ℚ)/3, (2:ℚ)/3, (2:ℚ)/3, 1, 1⟩ : Seg)])
            (headP0x [(⟨0, 0, (1:ℚ)/3, (1:ℚ)/3, (2:ℚ)/3, (2:ℚ)/3, 1, 1⟩ : Seg)])| ≤ 1e-6 ∧
        |lastP3x A2 - max (lastP3x [(⟨0, 0, (1:ℚ)/3, (1:ℚ)/3, (2:ℚ)/3, (2:ℚ)/3, 1, 1⟩ : Seg)])
            (lastP3x [(⟨0, 0, (1:ℚ)/3, (1:ℚ)/3, (2:ℚ)/3, (2:ℚ)/3, 1, 1⟩ : Seg)])| ≤ 1e-6 ∧
        |headP0x B2 - min (headP0x [(⟨0, 0, (1:ℚ)/3, (1:ℚ)/3, (2:ℚ)/3, (2:ℚ)/3, 1, 1⟩ : Seg)])
            (headP0x [(⟨0, 0, (1:ℚ)/3, (1:ℚ)/3, (2:ℚ)/3, (2:ℚ)/3, 1, 1⟩ : Seg)])| ≤ 1e-6 ∧
        |lastP3x B2 - max (lastP3x [(⟨0, 0, (1:ℚ)/3, (1:ℚ)/3, (2:ℚ)/3, (2:ℚ)/3, 1, 1⟩ : Seg)])
            (lastP3x [(⟨0, 0, (1:ℚ)/3, (1:ℚ)/3, (2:ℚ)/3, (2:ℚ)/3, 1, 1⟩ : Seg)])| ≤ 1e-6) :=
  ⟨by norm_num, by norm_num, by simp, linearSegMono,
   match_bezsegs_matched_or_none
     [⟨0, 0, (1:ℚ)/3, (1:ℚ)/3, (2:ℚ)/3, (2:ℚ)/3, 1, 1⟩]
     [⟨0, 0, (1:ℚ)/3, (1:ℚ)/3, (2:ℚ)/3, (2:ℚ)/3, 1, 1⟩] 50 (1e-6)
     (by norm_num) (by norm_num) (by simp) (by simp) linearSegMono linearSegMono⟩

/-! ### Claim C5: `lerp_bezsegs` -/

/-- Elementwise linear interpolation `a * (1 - m) + b * m` of two segment
rows. -/
def lerpSeg (m : ℚ) (a b : Seg) : Seg :=
  ⟨a.p0x * (1 - m) + b.p0x * m, a.p0y * (1 - m) + b.p0y * m,
   a.p1x * (1 - m) + b.p1x * m, a.p1y * (1 - m) + b.p1y * m,
   a.p2x * (1 - m) + b.p2x * m, a.p2y * (1 - m) + b.p2y * m,
   a.p3x * (1 - m) + b.p3x * m, a.p3y * (1 - m) + b.p3y * m⟩

/-- Tail of `lerp_bezsegs` once both curves have the same segment count: the
mixfac edge cases, the emptiness check, then the elementwise lerp (`m` is the
already-clipped mixfac). -/
def lerpFinish (A B : List Seg) (m tolerance : ℚ) : Option (List Seg) :=
  if |m - 0| < tolerance then some A
  else if |m - 1| < tolerance then some B
  else if A = [] ∨ B = [] then none
  else some (List.zipWith (lerpSeg m) A B)

/-- `lerp_bezsegs(segsA, segsB, mixfac, cut_precision, tolerance)`: clip the
mixfac, align the two curves through `match_bounds`/`match_bezsegs` when their
segment counts differ (any matching failure yields `None`), then mix. -/
def lerp_bezsegs (segsA segsB : List Seg) (mixfac : ℚ) (cut_precision : ℤ)
    (tolerance : ℚ) : Option (List Seg) :=
  if segsA.length ≠ segsB.length then
    match match_bounds segsB segsA true false tolerance with
    | none => none
    | some newsB =>
      match match_bezsegs segsA newsB cut_precision tolerance with
      | none => none
      | some (A2, B2) =>
        if A2.length ≠ B2.length then none
        else
          match match_bounds B2 segsB true false tolerance with
          | none => none
          | some B3 => lerpFinish A2 B3 (qclip mixfac 0 1) tolerance
  else lerpFinish segsA segsB (qclip mixfac 0 1) tolerance

attribute [ext] Seg

theorem zipWith_lerpSeg_zero : ∀ {A B : List Seg}, A.length = B.length →
    List.zipWith (lerpSeg 0) A B = A
  | [], [], _ => rfl
  | [], _ :: _, h => by simp at h
  | _ :: _, [], h => by simp at h
  | a :: A, b :: B, h => by
    rw [List.zipWith_cons_cons, zipWith_lerpSeg_zero (by simpa using h)]
    congr 1
    ext <;> simp [lerpSeg]

theorem zipWith_lerpSeg_one : ∀ {A B : List Seg}, A.length = B.length →
    List.zipWith (lerpSeg 1) A B = B
  | [], [], _ => rfl
  | [], _ :: _, h => by simp at h
  | _ :: _, [], h => by simp at h
  | a :: A, b :: B, h => by
    rw [List.zipWith_cons_cons, zipWith_lerpSeg_one (by simpa using h)]
    congr 1
    ext <;> simp [lerpSeg]

theorem qclip01_near_zero {x tol : ℚ} (h : |x - 0| < tol) : |qclip x 0 1 - 0| < tol := by
  unfold qclip
  rcases le_total x 0 with hx | hx
  · rw [max_eq_right hx, min_eq_left (by norm_num : (0:ℚ) ≤ 1)]
    simp only [sub_zero, abs_zero] at h ⊢
    linarith [abs_nonneg x]
  · rcases le_total x 1 with hx1 | hx1
    · rw [max_eq_left hx, min_eq_left hx1]
      exact h
    · rw [max_eq_left hx, min_eq_right hx1]
      simp only [sub_zero] at h ⊢
      rw [abs_of_nonneg (by norm_num : (0:ℚ) ≤ 1)]
      rw [abs_of_nonneg (by linarith : (0:ℚ) ≤ x)] at h
      linarith

theorem qclip01_near_one {x tol : ℚ} (h : |x - 1| < tol) : |qclip x 0 1 - 1| < tol := by
  unfold qclip
  rcases le_total x 0 with hx | hx
  · rw [max_eq_right hx, min_eq_left (by norm_num : (0:ℚ) ≤ 1)]
    rw [abs_of_nonpos (by linarith : x - 1 ≤ 0)] at h
    rw [abs_of_nonpos (by norm_num : (0:ℚ) - 1 ≤ 0)]
    linarith
  · rcases le_total x 1 with hx1 | hx1
    · rw [max_eq_left hx, min_eq_left hx1]
      exact h
    · rw [max_eq_left hx, min_eq_right hx1]
      have h0 : (0:ℚ) ≤ |x - 1| := abs_nonneg _
      simp only [sub_self, abs_zero]
      linarith

/-- C5 (amended): with equal, non-zero segment counts and a tolerance in
`(0, 1/2]`, `lerp_bezsegs` returns `segsA` when `|mixfac| < tolerance`,
`segsB` when additionally `|mixfac - 1| < tolerance` holds instead, and
otherwise the elementwise interpolation at the clipped mixfac; when the counts
differ it first aligns the curves through `match_bounds` and `match_bezsegs`
(returning `None` whenever that alignment fails) and mixes the aligned
arrays. -/
theorem lerp_bezsegs_correct :
    (∀ (segsA segsB : List Seg) (mixfac : ℚ) (cut_precision : ℤ) (tolerance : ℚ),
      segsA.length = segsB.length → segsA ≠ [] → 0 < tolerance → tolerance ≤ 1/2 →
      (|mixfac - 0| < tolerance →
        lerp_bezsegs segsA segsB mixfac cut_precision tolerance = some segsA) ∧
      (¬ |mixfac - 0| < tolerance → |mixfac - 1| < tolerance →
        lerp_bezsegs segsA segsB mixfac cut_precision tolerance = some segsB) ∧
      (¬ |mixfac - 0| < tolerance → ¬ |mixfac - 1| < tolerance →
        lerp_bezsegs segsA segsB mixfac cut_precision tolerance
          = some (List.zipWith (lerpSeg (qclip mixfac 0 1)) segsA segsB))) ∧
    (∀ (segsA segsB : List Seg) (mixfac : ℚ) (cut_precision : ℤ) (tolerance : ℚ),
      segsA.length ≠ segsB.length →
      lerp_bezsegs segsA segsB mixfac cut_precision tolerance
        = match match_bounds segsB segsA true false tolerance with
          | none => none
          | some newsB =>
            match match_bezsegs segsA newsB cut_precision tolerance with
            | none => none
            | some (A2, B2) =>
              if A2.length ≠ B2.length then none
              else
                match match_bounds B2 segsB true false tolerance with
                | none => none
                | some B3 => lerpFinish A2 B3 (qclip mixfac 0 1) tolerance) := by
  constructor
  · intro segsA segsB mixfac cut_precision tolerance hlen hne htol htolh
    have hBne : segsB ≠ [] := by
      intro hcon
      rw [hcon, List.length_nil] at hlen
      exact hne (List.length_eq_zero.mp hlen)
    have heq : lerp_bezsegs segsA segsB mixfac cut_precision tolerance
        = lerpFinish segsA segsB (qclip mixfac 0 1) tolerance := by
      unfold lerp_bezsegs
      rw [if_neg (by omega)]
    refine ⟨?_, ?_, ?_⟩
    · intro hc0
      rw [heq]
      unfold lerpFinish
      rw [if_pos (qclip01_near_zero hc0)]
    · intro hc0 hc1
      rw [heq]
      unfold lerpFinish
      have hclip1 : |qclip mixfac 0 1 - 1| < tolerance := qclip01_near_one hc1
      have hge : tolerance ≤ qclip mixfac 0 1 := by
        rw [abs_sub_lt_iff] at hc1
        unfold qclip
        apply le_min
        · apply le_max_of_le_left
          rw [abs_sub_lt_iff] at hc0
          push_neg at hc0
          rcases le_or_lt tolerance (mixfac - 0) with hcc | hcc
          · linarith
          · linarith [hc0 hcc]
        · linarith
      have hnc0 : ¬ |qclip mixfac 0 1 - 0| < tolerance := by
        rw [sub_zero, abs_of_nonneg (le_trans (le_of_lt htol) hge)]
        push_neg
        exact hge
      rw [if_neg hnc0, if_pos hclip1]
    · intro hc0 hc1
      rw [heq]
      unfold lerpFinish
      rcases le_total mixfac 0 with hx | hx
      · have hclip : qclip mixfac 0 1 = 0 := by
          unfold qclip
          rw [max_eq_right hx, min_eq_left (by norm_num : (0:ℚ) ≤ 1)]
        rw [hclip]
        rw [if_pos (by simpa using htol)]
        rw [zipWith_lerpSeg_zero hlen]
      · rcases le_total mixfac 1 with hx1 | hx1
        · have hclip : qclip mixfac 0 1 = mixfac := qclip01_id hx hx1
          rw [hclip, if_neg hc0, if_neg hc1,
            if_neg (by simp [hne, hBne])]
        · have hclip : qclip mixfac 0 1 = 1 := by
            unfold qclip
            rw [max_eq_left hx, min_eq_right hx1]
          rw [hclip]
          rw [if_neg (by rw [sub_zero, abs_of_nonneg (by norm_num : (0:ℚ) ≤ 1)]; linarith)]
          rw [if_pos (by simpa using htol)]
          rw [zipWith_lerpSeg_one hlen]
  · intro segsA segsB mixfac cut_precision tolerance hlen
    unfold lerp_bezsegs
    rw [if_pos hlen]

/-- C5 (counterexample): for the empty pair — equal segment counts `L = 0` —
and a mid-range mixfac, `lerp_bezsegs` returns `None`, not the (empty)
elementwise interpolation the claim promises. -/
theorem lerp_bezsegs_empty_counterexample :
    lerp_bezsegs [] [] ((1:ℚ)/2) 50 (1e-6) = none ∧
    (none : Option (List Seg))
      ≠ some (List.zipWith (lerpSeg (qclip ((1:ℚ)/2) 0 1)) [] []) := by
  constructor
  · decide
  · simp

theorem lerp_bezsegs_correct_witness :
    (([(⟨0, 0, 0, 0, 0, 0, 0, 0⟩ : Seg)] : List Seg).length
        = ([(⟨0, 0, 0, 0, 0, 0, 0, 0⟩ : Seg)] : List Seg).length) ∧
    (([(⟨0, 0, 0, 0, 0, 0, 0, 0⟩ : Seg)] : List Seg) ≠ []) ∧
    ((0:ℚ) < 1e-6) ∧ ((1e-6 : ℚ) ≤ 1/2) ∧
    ¬ (|(1:ℚ)/2 - 0| < 1e-6) ∧ ¬ (|(1:ℚ)/2 - 1| < 1e-6) ∧
    lerp_bezsegs [⟨0, 0, 0, 0, 0, 0, 0, 0⟩] [⟨0, 0, 0, 0, 0, 0, 0, 0⟩] ((1:ℚ)/2) 50 (1e-6)
      = some (List.zipWith (lerpSeg (qclip ((1:ℚ)/2) 0 1))
          [⟨0, 0, 0, 0, 0, 0, 0, 0⟩] [⟨0, 0, 0, 0, 0, 0, 0, 0⟩]) :=
  ⟨rfl, by simp, by norm_num, by norm_num,
   by rw [not_lt, sub_zero, abs_of_nonneg (by norm_num : (0:ℚ) ≤ 1/2)]; norm_num,
   by rw [not_lt, abs_of_nonpos (by norm_num : (1:ℚ)/2 - 1 ≤ 0)]; norm_num,
   (lerp_bezsegs_correct.1 [⟨0, 0, 0, 0, 0, 0, 0, 0⟩] [⟨0, 0, 0, 0, 0, 0, 0, 0⟩]
     ((1:ℚ)/2) 50 (1e-6) rfl (by simp) (by norm_num) (by norm_num)).2.2
     (by rw [not_lt, sub_zero, abs_of_nonneg (by norm_num : (0:ℚ) ≤ 1/2)]; norm_num)
     (by rw [not_lt, abs_of_nonpos (by norm_num : (1:ℚ)/2 - 1 ≤ 0)]; norm_num)⟩

/-! ### Claim C8: `hash_bezsegs` -/

/-- Model of a NumPy array at the `hash_bezsegs` boundary: its shape and the
raw bytes `tobytes()` returns (a byte per list entry). -/
structure NpArray where
  shape : List ℕ
  bytes : List ℕ
deriving DecidableEq, Repr

/-- `2^32`, the MD5 word modulus. -/
def M32 : ℕ := 4294967296

/-- 32-bit left rotation. -/
def rotl32 (x n : ℕ) : ℕ :=
  ((x <<< n) % M32) ||| (x >>> (32 - n))

/-- The 64 MD5 sine-derived round constants. -/
def md5K : List ℕ :=
  [0xd76aa478, 0xe8c7b756, 0x242070db, 0xc1bdceee,
   0xf57c0faf, 0x4787c62a, 0xa8304613, 0xfd469501,
   0x698098d8, 0x8b44f7af, 0xffff5bb1, 0x895cd7be,
   0x6b901122, 0xfd987193, 0xa679438e, 0x49b40821,
   0xf61e2562, 0xc040b340, 0x265e5a51, 0xe9b6c7aa,
   0xd62f105d, 0x02441453, 0xd8a1e681, 0xe7d3fbc8,
   0x21e1cde6, 0xc33707d6, 0xf4d50d87, 0x455a14ed,
   0xa9e3e905, 0xfcefa3f8, 0x676f02d9, 0x8d2a4c8a,
   0xfffa3942, 0x8771f681, 0x6d9d6122, 0xfde5380c,
   0xa4beea44, 0x4bdecfa9, 0xf6bb4b60, 0xbebfbc70,
   0x289b7ec6, 0xeaa127fa, 0xd4ef3085, 0x04881d05,
   0xd9d4d039, 0xe6db99e5, 0x1fa27cf8, 0xc4ac5665,
   0xf4292244, 0x432aff97, 0xab9423a7, 0xfc93a039,
   0x655b59c3, 0x8f0ccc92, 0xffeff47d, 0x85845dd1,
   0x6fa87e4f, 0xfe2ce6e0, 0xa3014314, 0x4e0811a1,
   0xf7537e82, 0xbd3af235, 0x2ad7d2bb, 0xeb86d391]

/-- The MD5 per-round left-rotation amounts. -/
def md5S : List ℕ :=
  [7, 12, 17, 22, 7, 12, 17, 22, 7, 12, 17, 22, 7, 12, 17, 22,
   5, 9, 14, 20, 5, 9, 14, 20, 5, 9, 14, 20, 5, 9, 14, 20,
   4, 11, 16, 23, 4, 11, 16, 23, 4, 11, 16, 23, 4, 11, 16, 23,
   6, 10, 15, 21, 6, 10, 15, 21, 6, 10, 15, 21, 6, 10, 15, 21]

/-- The `n` little-endian bytes of a value. -/
def toLEBytes : ℕ → ℕ → List ℕ
  | 0, _ => []
  | n + 1, v => (v % 256) :: toLEBytes n (v / 256)

/-- MD5 padding: `0x80`, zeros to 56 mod 64, then the 64-bit bit length. -/
def md5Pad (msg : List ℕ) : List ℕ :=
  msg ++ 0x80 :: List.replicate ((120 - ((msg.length + 1) % 64)) % 64) 0
    ++ toLEBytes 8 ((msg.length * 8) % (2 ^ 64))

/-- Fuelled worker for `chunks64` (the fuel, the list length, makes the
recursion structural, so that concrete digests reduce). -/
def chunks64Aux : ℕ → List ℕ → List (List ℕ)
  | _, [] => []
  | 0, _ :: _ => []
  | fuel + 1, x :: rest => ((x :: rest).take 64) :: chunks64Aux fuel ((x :: rest).drop 64)

/-- Split a byte list into 64-byte blocks. -/
def chunks64 (l : List ℕ) : List (List ℕ) :=
  chunks64Aux l.length l

/-- The sixteen little-endian 32-bit words of one block. -/
def blockWords (block : List ℕ) : List ℕ :=
  (List.range 16).map (fun j =>
    (block.getD (4 * j) 0) % 256 + 256 * ((block.getD (4 * j + 1) 0) % 256)
      + 65536 * ((block.getD (4 * j + 2) 0) % 256)
      + 16777216 * ((block.getD (4 * j + 3) 0) % 256))

/-- The MD5 round function for step `i`. -/
def md5F (i b c d : ℕ) : ℕ :=
  if i < 16 then (b &&& c) ||| ((b ^^^ (M32 - 1)) &&& d)
  else if i < 32 then (d &&& b) ||| ((d ^^^ (M32 - 1)) &&& c)
  else if i < 48 then b ^^^ c ^^^ d
  else c ^^^ (b ||| (d ^^^ (M32 - 1)))

/-- The MD5 message-word index for step `i`. -/
def md5G (i : ℕ) : ℕ :=
  if i < 16 then i
  else if i < 32 then (5 * i + 1) % 16
  else if i < 48 then (3 * i + 5) % 16
  else (7 * i) % 16

/-- One MD5 compression step. -/
def md5Step (w : List ℕ) (st : ℕ × ℕ × ℕ × ℕ) (i : ℕ) : ℕ × ℕ × ℕ × ℕ :=
  match st with
  | (a, b, c, d) =>
    let f := (md5F i b c d + a + md5K.getD i 0 + w.getD (md5G i) 0) % M32
    (d, (b + rotl32 f (md5S.getD i 0)) % M32, b, c)

/-- MD5 compression of one 64-byte block. -/
def md5Block (st : ℕ × ℕ × ℕ × ℕ) (block : List ℕ) : ℕ × ℕ × ℕ × ℕ :=
  match st, (List.range 64).foldl (md5Step (blockWords block)) st with
  | (a0, b0, c0, d0), (a, b, c, d) =>
    ((a0 + a) % M32, (b0 + b) % M32, (c0 + c) % M32, (d0 + d) % M32)

/-- The 16-byte MD5 digest of a byte string. -/
def md5Digest (msg : List ℕ) : List ℕ :=
  match (chunks64 (md5Pad msg)).foldl md5Block (0x67452301, 0xefcdab89, 0x98badcfe, 0x10325476) with
  | (a, b, c, d) => toLEBytes 4 a ++ toLEBytes 4 b ++ toLEBytes 4 c ++ toLEBytes 4 d

/-- The lowercase hexadecimal digits 0..9 then a..f, by code point. -/
def hexDigits : List Char :=
  (List.range 16).map (fun n => Char.ofNat (if n < 10 then 48 + n else 87 + n))

/-- The hexadecimal digit of a nibble. -/
def nibbleChar (n : ℕ) : Char :=
  hexDigits.getD (n % 16) (Char.ofNat 48)

/-- The 32 hex characters of `hexdigest()`. -/
def md5HexChars (msg : List ℕ) : List Char :=
  (md5Digest msg).flatMap (fun b => [nibbleChar (b / 16), nibbleChar (b % 16)])

/-- `hashlib.md5(bytes).hexdigest()`. -/
def md5hex (msg : List ℕ) : String :=
  ⟨md5HexChars msg⟩

/-- `hash_bezsegs(segments)`: `None` for a missing array or one that is not
two-dimensional with exactly 8 columns; otherwise the 32-character hex MD5
digest of the array's raw bytes. -/
def hash_bezsegs : Option NpArray → Option String
  | none => none
  | some arr =>
    if arr.shape.length ≠ 2 ∨ arr.shape[1]? ≠ some 8 then none
    else some (md5hex arr.bytes)

/-- Sanity anchor: the implementation reproduces the standard MD5 digest of
the empty byte string. -/
theorem md5hex_nil : md5hex [] = "d41d8cd98f00b204e9800998ecf8427e" := by decide

theorem toLEBytes_length (n v : ℕ) : (toLEBytes n v).length = n := by
  induction n generalizing v with
  | zero => rfl
  | succ k ih =>
    show (toLEBytes (k + 1) v).length = k + 1
    unfold toLEBytes
    rw [List.length_cons, ih]

theorem md5Digest_length (msg : List ℕ) : (md5Digest msg).length = 16 := by
  unfold md5Digest
  split
  simp [toLEBytes_length]

theorem md5HexChars_length (msg : List ℕ) : (md5HexChars msg).length = 32 := by
  unfold md5HexChars
  have hgen : ∀ l : List ℕ,
      (l.flatMap (fun b => [nibbleChar (b / 16), nibbleChar (b % 16)])).length
        = 2 * l.length := by
    intro l
    induction l with
    | nil => rfl
    | cons x rest ih =>
      rw [List.flatMap_cons, List.length_append, ih, List.length_cons]
      simp
      omega
  rw [hgen, md5Digest_length]

theorem nibbleChar_mem (n : ℕ) : nibbleChar n ∈ hexDigits := by
  have hlt : n % 16 < 16 := Nat.mod_lt _ (by norm_num)
  have hlen : n % 16 < hexDigits.length := by
    rw [show hexDigits.length = 16 from rfl]
    exact hlt
  unfold nibbleChar
  rw [List.getD_eq_getElem hexDigits _ hlen]
  exact List.getElem_mem hlen

theorem md5HexChars_hex (msg : List ℕ) : ∀ ch ∈ md5HexChars msg, ch ∈ hexDigits := by
  intro ch hch
  unfold md5HexChars at hch
  rcases List.mem_flatMap.mp hch with ⟨b, _, hmem⟩
  rcases List.mem_cons.mp hmem with h | h
  · rw [h]
    exact nibbleChar_mem _
  · rcases List.mem_cons.mp h with h2 | h2
    · rw [h2]
      exact nibbleChar_mem _
    · simp at h2

/-- C8: `hash_bezsegs` never raises: a missing array or one that is not
two-dimensional with exactly 8 columns yields `None`, and every conforming
`(N, 8)` array yields the 32-character lowercase-hexadecimal MD5 digest of its
raw bytes, so arrays with equal bytes always receive equal hashes. -/
theorem hash_bezsegs_spec :
    hash_bezsegs none = none ∧
    (∀ arr : NpArray, arr.shape.length ≠ 2 ∨ arr.shape[1]? ≠ some 8 →
      hash_bezsegs (some arr) = none) ∧
    (∀ arr : NpArray, arr.shape.length = 2 → arr.shape[1]? = some 8 →
      hash_bezsegs (some arr) = some (md5hex arr.bytes) ∧
      (md5hex arr.bytes).length = 32 ∧
      ∀ ch ∈ (md5hex arr.bytes).data, ch ∈ hexDigits) ∧
    (∀ a b : NpArray, a.bytes = b.bytes →
      hash_bezsegs (some a) = some (md5hex a.bytes) →
      hash_bezsegs (some b) = some (md5hex b.bytes) →
      hash_bezsegs (some a) = hash_bezsegs (some b)) := by
  refine ⟨rfl, ?_, ?_, ?_⟩
  · intro arr h
    simp only [hash_bezsegs]
    rw [if_pos h]
  · intro arr h1 h2
    refine ⟨?_, ?_, ?_⟩
    · have hcond : ¬ (arr.shape.length ≠ 2 ∨ arr.shape[1]? ≠ some 8) := fun hcon =>
        hcon.elim (fun h => h h1) (fun h => h h2)
      simp only [hash_bezsegs]
      rw [if_neg hcond]
    · show (md5HexChars arr.bytes).length = 32
      exact md5HexChars_length arr.bytes
    · show ∀ ch ∈ md5HexChars arr.bytes, ch ∈ hexDigits
      exact md5HexChars_hex arr.bytes
  · intro a b hbytes ha hb
    rw [ha, hb, hbytes]

theorem hash_bezsegs_spec_witness :
    ((⟨[1, 8], List.replicate 64 0⟩ : NpArray).shape.length = 2) ∧
    ((⟨[1, 8], List.replicate 64 0⟩ : NpArray).shape[1]? = some 8) ∧
    ((⟨[3], [1, 2]⟩ : NpArray).shape.length ≠ 2 ∨
      (⟨[3], [1, 2]⟩ : NpArray).shape[1]? ≠ some 8) ∧
    hash_bezsegs (some ⟨[3], [1, 2]⟩) = none ∧
    hash_bezsegs (some ⟨[1, 8], List.replicate 64 0⟩)
      = some (md5hex (List.replicate 64 0)) ∧
    (md5hex (List.replicate 64 0)).length = 32 ∧
    (∀ ch ∈ (md5hex (List.replicate 64 0)).data, ch ∈ hexDigits) :=
  ⟨rfl, rfl, by simp,
   (hash_bezsegs_spec.2.1 ⟨[3], [1, 2]⟩ (by simp)),
   (hash_bezsegs_spec.2.2.1 ⟨[1, 8], List.replicate 64 0⟩ rfl rfl).1,
   (hash_bezsegs_spec.2.2.1 ⟨[1, 8], List.replicate 64 0⟩ rfl rfl).2.1,
   (hash_bezsegs_spec.2.2.1 ⟨[1, 8], List.replicate 64 0⟩ rfl rfl).2.2⟩

/-! ### Claim C7: determinism of the pure curve operations -/

/-- C7: every embedded curve-algebra operation — sampling, subdivision,
cutting, monotonicity enforcement, extension, matching, bounds matching,
interpolation and hashing — is a pure function of its arguments: two calls
with equal inputs produce equal outputs, with no dependence on host state,
concurrency or I/O (the embedding is total and stateless by construction). -/
theorem curve_ops_deterministic :
    (∀ (a1 a2 : Option (List Seg)) (r1 r2 : ℤ), a1 = a2 → r1 = r2 →
      sample_bezsegs a1 r1 = sample_bezsegs a2 r2) ∧
    (∀ (s1 s2 : List Seg) (r1 r2 : ℤ), s1 = s2 → r1 = r2 →
      sample_bezsegs_with_t s1 r1 = sample_bezsegs_with_t s2 r2) ∧
    (∀ (s1 s2 : List Seg) (t1 t2 : List ℚ) (tol1 tol2 : ℚ), s1 = s2 → t1 = t2 → tol1 = tol2 →
      casteljau_subdiv_bezsegs s1 t1 tol1 = casteljau_subdiv_bezsegs s2 t2 tol2) ∧
    (∀ (s1 s2 : List Seg) (x1 x2 : ℚ) (r1 r2 : ℤ) (tol1 tol2 : ℚ),
      s1 = s2 → x1 = x2 → r1 = r2 → tol1 = tol2 →
      cut_bezsegs s1 x1 r1 tol1 = cut_bezsegs s2 x2 r2 tol2) ∧
    (∀ (s1 s2 : List Seg), s1 = s2 →
      ensure_monotonic_bezsegs s1 = ensure_monotonic_bezsegs s2) ∧
    (∀ (s1 s2 : List Seg) (x1 x2 : ℚ) (m1 m2 : ExtendMode) (tol1 tol2 : ℚ),
      s1 = s2 → x1 = x2 → m1 = m2 → tol1 = tol2 →
      extend_bezsegs s1 x1 m1 tol1 = extend_bezsegs s2 x2 m2 tol2) ∧
    (∀ (a1 a2 b1 b2 : List Seg) (p1 p2 : ℤ) (tol1 tol2 : ℚ),
      a1 = a2 → b1 = b2 → p1 = p2 → tol1 = tol2 →
      match_bezsegs a1 b1 p1 tol1 = match_bezsegs a2 b2 p2 tol2) ∧
    (∀ (a1 a2 b1 b2 : List Seg) (rx1 rx2 ry1 ry2 : Bool) (tol1 tol2 : ℚ),
      a1 = a2 → b1 = b2 → rx1 = rx2 → ry1 = ry2 → tol1 = tol2 →
      match_bounds a1 b1 rx1 ry1 tol1 = match_bounds a2 b2 rx2 ry2 tol2) ∧
    (∀ (a1 a2 b1 b2 : List Seg) (m1 m2 : ℚ) (p1 p2 : ℤ) (tol1 tol2 : ℚ),
      a1 = a2 → b1 = b2 → m1 = m2 → p1 = p2 → tol1 = tol2 →
      lerp_bezsegs a1 b1 m1 p1 tol1 = lerp_bezsegs a2 b2 m2 p2 tol2) ∧
    (∀ (a1 a2 : Option NpArray), a1 = a2 → hash_bezsegs a1 = hash_bezsegs a2) := by
  refine ⟨?_, ?_, ?_, ?_, ?_, ?_, ?_, ?_, ?_, ?_⟩
  · intro a1 a2 r1 r2 h1 h2
    rw [h1, h2]
  · intro s1 s2 r1 r2 h1 h2
    rw [h1, h2]
  · intro s1 s2 t1 t2 tol1 tol2 h1 h2 h3
    rw [h1, h2, h3]
  · intro s1 s2 x1 x2 r1 r2 tol1 tol2 h1 h2 h3 h4
    rw [h1, h2, h3, h4]
  · intro s1 s2 h1
    rw [h1]
  · intro s1 s2 x1 x2 m1 m2 tol1 tol2 h1 h2 h3 h4
    rw [h1, h2, h3, h4]
  · intro a1 a2 b1 b2 p1 p2 tol1 tol2 h1 h2 h3 h4
    rw [h1, h2, h3, h4]
  · intro a1 a2 b1 b2 rx1 rx2 ry1 ry2 tol1 tol2 h1 h2 h3 h4 h5
    rw [h1, h2, h3, h4, h5]
  · intro a1 a2 b1 b2 m1 m2 p1 p2 tol1 tol2 h1 h2 h3 h4 h5
    rw [h1, h2, h3, h4, h5]
  · intro a1 a2 h1
    rw [h1]

theorem curve_ops_deterministic_witness :
    sample_bezsegs (some []) 1 = sample_bezsegs (some []) 1 ∧
    sample_bezsegs_with_t [] 1 = sample_bezsegs_with_t [] 1 ∧
    casteljau_subdiv_bezsegs [] [] (1e-6) = casteljau_subdiv_bezsegs [] [] (1e-6) ∧
    cut_bezsegs [] 0 50 (1e-6) = cut_bezsegs [] 0 50 (1e-6) ∧
    ensure_monotonic_bezsegs [] = ensure_monotonic_bezsegs [] ∧
    extend_bezsegs [] 0 .HANDLE (1e-6) = extend_bezsegs [] 0 .HANDLE (1e-6) ∧
    match_bezsegs [] [] 50 (1e-6) = match_bezsegs [] [] 50 (1e-6) ∧
    match_bounds [] [] true false (1e-6) = match_bounds [] [] true false (1e-6) ∧
    lerp_bezsegs [] [] 0 50 (1e-6) = lerp_bezsegs [] [] 0 50 (1e-6) ∧
    hash_bezsegs none = hash_bezsegs none :=
  ⟨curve_ops_deterministic.1 (some []) (some []) 1 1 rfl rfl,
   curve_ops_deterministic.2.1 [] [] 1 1 rfl rfl,
   curve_ops_deterministic.2.2.1 [] [] [] [] (1e-6) (1e-6) rfl rfl rfl,
   curve_ops_deterministic.2.2.2.1 [] [] 0 0 50 50 (1e-6) (1e-6) rfl rfl rfl rfl,
   curve_ops_deterministic.2.2.2.2.1 [] [] rfl,
   curve_ops_deterministic.2.2.2.2.2.1 [] [] 0 0 .HANDLE .HANDLE (1e-6) (1e-6)
     rfl rfl rfl rfl,
   curve_ops_deterministic.2.2.2.2.2.2.1 [] [] [] [] 50 50 (1e-6) (1e-6) rfl rfl rfl rfl,
   curve_ops_deterministic.2.2.2.2.2.2.2.1 [] [] [] [] true true false false (1e-6) (1e-6)
     rfl rfl rfl rfl rfl,
   curve_ops_deterministic.2.2.2.2.2.2.2.2.1 [] [] [] [] 0 0 50 50 (1e-6) (1e-6)
     rfl rfl rfl rfl rfl,
   curve_ops_deterministic.2.2.2.2.2.2.2.2.2 none none rfl⟩
